import Mathlib

set_option maxHeartbeats 1000000

/-!
Shallow embedding of the `vote-counter` repository (ranked-choice tallying).

Source layout mirrored here:
  * `src/ballot.rs`    : `Ballot` (a `Vec<usize>` of candidate indices),
    `Ballot::remove_candidates`, `Ballot::first_pref`, `Ballot::from_raw_ballot`.
  * `src/ballot_box.rs`: `BallotBoxNode` (preference trie node), `BallotBox`
    (`eliminated`, `total_votes`, `nodes`, `candidates`), `push`, `status`,
    `promote` / `runoff` / `runoff_or_promote` / `distribute`.
  * `src/main.rs`      : the counting loop in `count`.

Machine integers (`u32`, `usize`) are modelled as `Nat`; all quantities are
sums of pushed ballot quantities, far below `2^32`, and the single subtraction
(`total_votes -= total_beneath`) is shown to never underflow on well-formed
boxes. Fallible points (`Option::unwrap` panics, out-of-bounds indexing,
`Result`) are modelled with `Option`: a `none` result marks a panic of the
original code. The children vector `Vec<Option<BallotBoxNode>>` is embedded as
the isomorphic mutual inductive `NodeSlots` (one constructor per slot state),
which keeps every recursive function structurally recursive and hence
kernel-computable. A `Ballot` is its underlying `List Nat` of candidate
indices; the winning threshold (an `f64` in `[0,1]`, clamped by the caller) is
modelled as a rational number.
-/

mutual

/-- Trie node of the ballot box (`struct BallotBoxNode` in `ballot_box.rs`):
`total_beneath` counts ballots passing through the node, `endings` counts
ballots ending exactly here, `children` holds one optional child per
candidate index. -/
inductive BallotBoxNode : Type where
  | mk (total_beneath : Nat) (endings : Nat) (children : NodeSlots) : BallotBoxNode

/-- Vector of optional trie nodes (`Vec<Option<BallotBoxNode>>` in the source),
as an inlined list: `consNone` is a `None` slot, `consSome` a `Some` slot. -/
inductive NodeSlots : Type where
  | nil : NodeSlots
  | consNone (rest : NodeSlots) : NodeSlots
  | consSome (node : BallotBoxNode) (rest : NodeSlots) : NodeSlots

end

deriving instance DecidableEq for BallotBoxNode
deriving instance DecidableEq for NodeSlots

/-- Field accessor for `total_beneath`. -/
def BallotBoxNode.total_beneath : BallotBoxNode → Nat
  | .mk t _ _ => t

/-- Field accessor for `endings`. -/
def BallotBoxNode.endings : BallotBoxNode → Nat
  | .mk _ e _ => e

/-- Field accessor for `children`. -/
def BallotBoxNode.children : BallotBoxNode → NodeSlots
  | .mk _ _ c => c

/-- Number of slots (`Vec::len`). -/
def NodeSlots.length : NodeSlots → Nat
  | .nil => 0
  | .consNone rest => rest.length + 1
  | .consSome _ rest => rest.length + 1

/-- Read slot `i` (`nodes[i]` as an `Option`); out-of-range reads give `none`
(the Rust code would panic there, and every use carries the bound). -/
def NodeSlots.getSlot : NodeSlots → Nat → Option BallotBoxNode
  | .nil, _ => none
  | .consNone _, 0 => none
  | .consSome nd _, 0 => some nd
  | .consNone rest, i + 1 => rest.getSlot i
  | .consSome _ rest, i + 1 => rest.getSlot i

/-- Write slot `i` (`nodes[i] = v`); out-of-range writes are the identity. -/
def NodeSlots.setSlot : NodeSlots → Nat → Option BallotBoxNode → NodeSlots
  | .nil, _, _ => .nil
  | .consNone rest, 0, none => .consNone rest
  | .consNone rest, 0, some nd => .consSome nd rest
  | .consSome _ rest, 0, none => .consNone rest
  | .consSome _ rest, 0, some nd => .consSome nd rest
  | .consNone rest, i + 1, v => .consNone (rest.setSlot i v)
  | .consSome nd rest, i + 1, v => .consSome nd (rest.setSlot i v)

/-- Slots holding `n` empty (`None`) entries: `vec![None; n]`. -/
def NodeSlots.replicate : Nat → NodeSlots
  | 0 => .nil
  | n + 1 => .consNone (NodeSlots.replicate n)

/-- Sum of `total_beneath` over the present slots. -/
def NodeSlots.totalSum : NodeSlots → Nat
  | .nil => 0
  | .consNone rest => rest.totalSum
  | .consSome nd rest => nd.total_beneath + rest.totalSum

/-- Per-slot top totals, `0` for an absent slot: the `totals` vector computed
at the start of `BallotBox::status`. -/
def NodeSlots.totalsList : NodeSlots → List Nat
  | .nil => []
  | .consNone rest => 0 :: rest.totalsList
  | .consSome nd rest => nd.total_beneath :: rest.totalsList

/-- Fresh empty node with one child slot per candidate
(`BallotBoxNode::new`). -/
def BallotBoxNode.new (children : Nat) : BallotBoxNode :=
  .mk 0 0 (NodeSlots.replicate children)

/-- Core of `BallotBox::push`: walk the trie along the ballot, creating
missing nodes, adding `quantity` to `total_beneath` of every visited node and
to `endings` of the last one. -/
def pushPath (numCandidates quantity : Nat) : List Nat → NodeSlots → NodeSlots
  | [], slots => slots
  | [c], slots =>
    let nd := (slots.getSlot c).getD (BallotBoxNode.new numCandidates)
    slots.setSlot c (some (.mk (nd.total_beneath + quantity) (nd.endings + quantity) nd.children))
  | c :: c2 :: rest, slots =>
    let nd := (slots.getSlot c).getD (BallotBoxNode.new numCandidates)
    slots.setSlot c
      (some (.mk (nd.total_beneath + quantity) nd.endings
        (pushPath numCandidates quantity (c2 :: rest) nd.children)))

/-- Ballot box (`struct BallotBox` in `ballot_box.rs`). -/
structure BallotBox : Type where
  eliminated : List Bool
  total_votes : Nat
  nodes : NodeSlots
  candidates : List String
deriving DecidableEq

/-- Empty ballot box for a candidate list (`BallotBox::new`): everyone starts
eliminated and every top-level slot is absent. -/
def BallotBox.new (candidates : List String) : BallotBox :=
  { eliminated := List.replicate candidates.length true
    total_votes := 0
    nodes := NodeSlots.replicate candidates.length
    candidates := candidates }

/-- Highest-preference candidate of a ballot (`Ballot::first_pref`); only
ever applied to non-empty ballots (the Rust code indexes `[0]`). -/
def Ballot.first_pref (ballot : List Nat) : Nat := ballot.headD 0

/-- Model of `BallotBox::push`: marks the first preference as not eliminated,
adds `quantity` to `total_votes`, and threads the ballot through the trie.
`push` is never called on an empty ballot in the source (a `Ballot` has
length at least one); the `[]` case is inert. -/
def BallotBox.push (b : BallotBox) (ballot : List Nat) (quantity : Nat) : BallotBox :=
  match ballot with
  | [] => b
  | first :: _ =>
    { b with
      eliminated := b.eliminated.set first false
      total_votes := b.total_votes + quantity
      nodes := pushPath b.candidates.length quantity ballot b.nodes }

/-- Indices of all eliminated candidates, ascending
(`BallotBox::eliminated`). -/
def BallotBox.eliminatedList (b : BallotBox) : List Nat :=
  (List.range b.candidates.length).filter (fun c => b.eliminated.getD c false)

/-- Number of candidates not yet eliminated (`BallotBox::remaining`). -/
def BallotBox.remaining (b : BallotBox) : Nat :=
  b.eliminated.countP (fun x => !x)

/-- Round outcome (`enum CountStatus`). -/
inductive CountStatus : Type where
  | Winner (candidate : Nat)
  | Tie
  | Promotion (winners : List Nat)
  | Runoff (losers : List Nat)
deriving DecidableEq, Repr

/-- Maximum of a list (`Iterator::max`): `none` exactly when the list is
empty, where the Rust `unwrap` panics. -/
def listMax : List Nat → Option Nat
  | [] => none
  | x :: xs => some (match listMax xs with | none => x | some m => Nat.max x m)

/-- Minimum of a list (`Iterator::min`): `none` exactly when the list is
empty, where the Rust `unwrap` panics. -/
def listMin : List Nat → Option Nat
  | [] => none
  | x :: xs => some (match listMin xs with | none => x | some m => Nat.min x m)

/-- Top-level totals vector of the box, one entry per candidate. -/
def BallotBox.topTotals (b : BallotBox) : List Nat := b.nodes.totalsList

/-- Model of `BallotBox::status`. Returns `none` where the original panics:
`max` over an empty totals vector, or — decisively — `min` over the nonzero
totals when every total is zero, which happens before the `max == 0` tie
branch can be taken. The threshold comparison
`max as f64 >= threshold * total_votes as f64` is modelled over `Rat`. -/
def BallotBox.status (b : BallotBox) (threshold : Rat) : Option CountStatus :=
  let totals := b.topTotals
  match listMax totals with
  | none => none
  | some mx =>
    match listMin (totals.filter (fun x => x != 0)) with
    | none => none
    | some mn =>
      let winners := (totals.enum.filter (fun ct => ct.2 == mx)).map Prod.fst
      let losers := (totals.enum.filter (fun ct => ct.2 == mn)).map Prod.fst
      some (if mx = 0 then .Tie
        else if winners.length = 1 ∧ ((threshold * (b.total_votes : Rat)) ≤ (mx : Rat))
          then .Winner (winners.headD 0)
        else if winners.length = b.remaining then .Promotion winners
        else .Runoff losers)

/-- Model of `Ballot::remove_candidates`: drop every listed candidate,
keeping relative order; `none` when nothing survives. -/
def Ballot.remove_candidates (ballot : List Nat) (toRemove : List Nat) : Option (List Nat) :=
  let newBallot := ballot.filter (fun c => !(toRemove.contains c))
  match newBallot with
  | [] => none
  | _ => some newBallot

mutual

/-- Model of `BallotBox::distribute`: walk a detached subtree and emit one
`(ballot fragment, endings)` pending vote per node with nonzero `endings`;
`currentBallot` is the path accumulated so far (empty at the detachment
point, so the detached candidate itself is not part of any fragment). -/
def BallotBoxNode.distribute : BallotBoxNode → List Nat → List (List Nat × Nat)
  | .mk _ e ch, currentBallot =>
    NodeSlots.distributeFrom ch 0 currentBallot ++
      (if e > 0 then [(currentBallot, e)] else [])

/-- Child loop of `distribute`: visit present children in ascending candidate
order, extending the path with the child's index. -/
def NodeSlots.distributeFrom : NodeSlots → Nat → List Nat → List (List Nat × Nat)
  | .nil, _, _ => []
  | .consNone rest, i, currentBallot => rest.distributeFrom (i + 1) currentBallot
  | .consSome nd rest, i, currentBallot =>
    nd.distribute (currentBallot ++ [i]) ++ rest.distributeFrom (i + 1) currentBallot

end

/-- First phase of `runoff_or_promote` (the `for candidate in ...` loop):
detach each selected candidate's subtree, subtract its `total_beneath` from
`total_votes`, collect its pending votes, and mark it eliminated when
`runoff` holds. `none` models the `unwrap` panic on an absent (or
out-of-range) slot. -/
def BallotBox.detachLoop (runoff : Bool) :
    List Nat → BallotBox → List (List Nat × Nat) → Option (BallotBox × List (List Nat × Nat))
  | [], b, acc => some (b, acc)
  | c :: rest, b, acc =>
    match b.nodes.getSlot c with
    | none => none
    | some nd =>
      BallotBox.detachLoop runoff rest
        { b with
          nodes := b.nodes.setSlot c none
          total_votes := b.total_votes - nd.total_beneath
          eliminated := if runoff then b.eliminated.set c true else b.eliminated }
        (acc ++ nd.distribute [])

/-- Model of `BallotBox::runoff_or_promote`: detach the selected subtrees,
compute the now-current eliminated set once, then strip that set from every
pending vote and re-`push` the non-empty remainders in order. -/
def BallotBox.runoff_or_promote (b : BallotBox) (toPromoteOrEliminate : List Nat)
    (runoff : Bool) : Option BallotBox :=
  match BallotBox.detachLoop runoff toPromoteOrEliminate b [] with
  | none => none
  | some (b2, adjustedVotes) =>
    let eliminatedCandidates := b2.eliminatedList
    some (adjustedVotes.foldl (fun bb vq =>
      match Ballot.remove_candidates vq.1 eliminatedCandidates with
      | none => bb
      | some v => bb.push v vq.2) b2)

/-- Model of `BallotBox::promote`. -/
def BallotBox.promote (b : BallotBox) (toPromote : List Nat) : Option BallotBox :=
  b.runoff_or_promote toPromote false

/-- Model of `BallotBox::runoff`. -/
def BallotBox.runoff (b : BallotBox) (toEliminate : List Nat) : Option BallotBox :=
  b.runoff_or_promote toEliminate true

/-- Validation loop of `Ballot::from_raw_ballot`: collect `(preference,
candidate)` pairs in candidate order, rejecting (with `none`) as soon as a
preference value repeats; `seen` is the hash set of ranks met so far and
`idx` the current candidate index. -/
def collectPrefPairs : List (Option Nat) → Nat → List Nat → Option (List (Nat × Nat))
  | [], _, _ => some []
  | none :: rest, idx, seen => collectPrefPairs rest (idx + 1) seen
  | some p :: rest, idx, seen =>
    if p ∈ seen then none
    else
      match collectPrefPairs rest (idx + 1) (p :: seen) with
      | none => none
      | some pairs => some ((p, idx) :: pairs)

/-- Sorted insertion by preference value, modelling one step of
`sort_by(|(p1, _), (p2, _)| p1.cmp(p2))` (preference values are distinct at
this point, so stability is immaterial). -/
def insertPairSorted (p : Nat × Nat) : List (Nat × Nat) → List (Nat × Nat)
  | [] => [p]
  | q :: rest => if p.1 ≤ q.1 then p :: q :: rest else q :: insertPairSorted p rest

/-- Insertion sort of preference pairs by ascending preference value. -/
def sortPairs : List (Nat × Nat) → List (Nat × Nat)
  | [] => []
  | p :: rest => insertPairSorted p (sortPairs rest)

/-- Model of `Ballot::from_raw_ballot`: reject a duplicated preference value
or an all-absent record; otherwise sort the expressed pairs by preference
and keep the candidates. -/
def Ballot.from_raw_ballot (raw : List (Option Nat)) : Option (List Nat) :=
  match collectPrefPairs raw 0 [] with
  | none => none
  | some [] => none
  | some pairs => some ((sortPairs pairs).map Prod.snd)

/-- Outcome of the counting loop in `main.rs::count`, with the two panic
modes and fuel exhaustion distinguished. -/
inductive LoopResult : Type where
  | winner (candidate : Nat)
  | tie
  | panicked
  | fuelOut
deriving DecidableEq, Repr

/-- Fuel-indexed model of the counting loop in `main.rs::count`: repeatedly
classify with `status` and apply `runoff` or `promote` until a terminal
outcome; `panicked` marks a panic inside `status` or redistribution. -/
def countLoop : Nat → BallotBox → Rat → LoopResult
  | 0, _, _ => .fuelOut
  | fuel + 1, b, threshold =>
    match b.status threshold with
    | none => .panicked
    | some (.Winner w) => .winner w
    | some .Tie => .tie
    | some (.Runoff losers) =>
      match b.runoff losers with
      | none => .panicked
      | some b2 => countLoop fuel b2 threshold
    | some (.Promotion winners) =>
      match b.promote winners with
      | none => .panicked
      | some b2 => countLoop fuel b2 threshold

/-- End-to-end example 1 of the spec: candidates `[A, B, C]`, ballots
`3×[A,B]`, `2×[B,C]`, `1×[C,A]`. -/
def exampleOneBox : BallotBox :=
  (((BallotBox.new ["A", "B", "C"]).push [0, 1] 3).push [1, 2] 2).push [2, 0] 1

/-- End-to-end example 3 of the spec: candidates `[A, B]`, ballots `1×[A]`,
`1×[B]`. -/
def exampleThreeBox : BallotBox :=
  ((BallotBox.new ["A", "B"]).push [0] 1).push [1] 1

/-- State of example 3's box after the first round's promotion of both
candidates: both length-1 ballots are exhausted, so the trie is empty,
`total_votes` is `0`, and nobody is eliminated. -/
def exampleThreeAfter : BallotBox :=
  { eliminated := [false, false]
    total_votes := 0
    nodes := .consNone (.consNone .nil)
    candidates := ["A", "B"] }

/-- Total votes stored beneath an optional slot (`0` for an absent slot). -/
def optTotal : Option BallotBoxNode → Nat
  | none => 0
  | some nd => nd.total_beneath

mutual

/-- Boolean form of the trie invariant at a node and all its descendants:
`total_beneath == endings + sum of child.total_beneath` everywhere. -/
def BallotBoxNode.invB : BallotBoxNode → Bool
  | .mk t e ch => (t == e + ch.totalSum) && ch.slotsInvB

/-- Trie invariant for every present node of a slot vector. -/
def NodeSlots.slotsInvB : NodeSlots → Bool
  | .nil => true
  | .consNone rest => rest.slotsInvB
  | .consSome nd rest => nd.invB && rest.slotsInvB

end

mutual

/-- Structural well-formedness: every `children` vector in the subtree has
exactly `n` slots (the source allocates `vec![None; candidates.len()]`). -/
def BallotBoxNode.wfB (n : Nat) : BallotBoxNode → Bool
  | .mk _ _ ch => (ch.length == n) && ch.slotsWfB n

/-- Structural well-formedness for every present node of a slot vector. -/
def NodeSlots.slotsWfB (n : Nat) : NodeSlots → Bool
  | .nil => true
  | .consNone rest => rest.slotsWfB n
  | .consSome nd rest => nd.wfB n && rest.slotsWfB n

end

mutual

/-- Sum of `endings` over a whole subtree: the number of ballots stored
beneath a node. -/
def BallotBoxNode.esum : BallotBoxNode → Nat
  | .mk _ e ch => e + ch.slotsEsum

/-- Sum of `endings` over all present nodes of a slot vector. -/
def NodeSlots.slotsEsum : NodeSlots → Nat
  | .nil => 0
  | .consNone rest => rest.slotsEsum
  | .consSome nd rest => nd.esum + rest.slotsEsum

end

/-- Well-formedness of a whole ballot box: both per-candidate vectors have one
entry per candidate, every trie node is structurally well-formed and
satisfies the trie invariant, `total_votes` equals the sum of top-level
totals, and every eliminated candidate has an absent top-level slot. -/
def BallotBox.invB (b : BallotBox) : Bool :=
  (b.nodes.length == b.candidates.length) &&
  (b.eliminated.length == b.candidates.length) &&
  b.nodes.slotsWfB b.candidates.length &&
  b.nodes.slotsInvB &&
  (b.total_votes == b.nodes.totalSum) &&
  (List.range b.candidates.length).all
    (fun c => !(b.eliminated.getD c false) || (b.nodes.getSlot c).isNone)

/-- Total quantity carried by a list of pending votes. -/
def sumQ (votes : List (List Nat × Nat)) : Nat :=
  (votes.map Prod.snd).sum

/-- Total quantity of the pending votes that are exhausted by stripping the
eliminated set `elim` (their redistribution yields no surviving ballot). -/
def exhaustedSum (elim : List Nat) (votes : List (List Nat × Nat)) : Nat :=
  sumQ (votes.filter (fun vq => (Ballot.remove_candidates vq.1 elim).isNone))

/-- Reachable ballot-box states, tracking in the second component the total
quantity of externally pushed ballots: the empty box is reachable, pushing
any valid ballot (non-empty, all indices in range — what
`Ballot::from_raw_ballot` produces) preserves reachability, and so does any
non-panicking redistribution (`promote` or `runoff`). -/
inductive Reach : BallotBox → Nat → Prop where
  | new (candidates : List String) : Reach (BallotBox.new candidates) 0
  | push {b : BallotBox} {s : Nat} (ballot : List Nat) (quantity : Nat) :
      Reach b s → ballot ≠ [] → (∀ c ∈ ballot, c < b.candidates.length) →
      Reach (b.push ballot quantity) (s + quantity)
  | redistribute {b : BallotBox} {s : Nat} {b2 : BallotBox}
      (sel : List Nat) (runoff : Bool) :
      Reach b s → b.runoff_or_promote sel runoff = some b2 → Reach b2 s

/-- Candidate indices whose top-level total equals `m`, ascending: the
`winners` (and, with `m` the minimum, `losers`) accumulator computed inside
`BallotBox::status` by folding over the enumerated totals. -/
def maxHolders (totals : List Nat) (m : Nat) : List Nat :=
  (totals.enum.filter (fun ct => ct.2 == m)).map Prod.fst

/-- Runoff example: candidates `[A, B, C]` with ballots `3×[A]`, `2×[B]`,
`1×[C]`; at threshold `0.7` the first round is a runoff eliminating `C`. -/
def runoffExampleBox : BallotBox :=
  (((BallotBox.new ["A", "B", "C"]).push [0] 3).push [1] 2).push [2] 1

/-- State of the runoff example after `runoff [2]`: `C` is eliminated, its
single one-preference ballot is exhausted. -/
def runoffExampleAfter : BallotBox :=
  { eliminated := [false, false, true]
    total_votes := 5
    nodes := .consSome (.mk 3 3 (.consNone (.consNone (.consNone .nil))))
      (.consSome (.mk 2 2 (.consNone (.consNone (.consNone .nil))))
        (.consNone .nil))
    candidates := ["A", "B", "C"] }

/-- Closed form of the pair accumulator built by `from_raw_ballot`'s
validation loop: one `(preference, candidate)` pair per expressed cell, in
candidate order, with candidate indices starting at `idx`. -/
def prefPairs (raw : List (Option Nat)) (idx : Nat) : List (Nat × Nat) :=
  (List.enumFrom idx raw).filterMap (fun io => io.2.map (fun p => (p, io.1)))

/-- Single-motive induction over a slot vector, leaving the stored nodes
untouched. -/
theorem NodeSlots.recSimple (Q : NodeSlots → Prop)
    (h0 : Q .nil) (h1 : ∀ rest, Q rest → Q (.consNone rest))
    (h2 : ∀ nd rest, Q rest → Q (.consSome nd rest)) : ∀ s, Q s
  | .nil => h0
  | .consNone rest => h1 rest (NodeSlots.recSimple Q h0 h1 h2 rest)
  | .consSome nd rest => h2 nd rest (NodeSlots.recSimple Q h0 h1 h2 rest)

mutual

/-- Joint structural induction over trie nodes and slot vectors (node part). -/
theorem BallotBoxNode.mutualIndNode (P : BallotBoxNode → Prop) (Q : NodeSlots → Prop)
    (hmk : ∀ t e ch, Q ch → P (.mk t e ch))
    (h0 : Q .nil) (h1 : ∀ rest, Q rest → Q (.consNone rest))
    (h2 : ∀ nd rest, P nd → Q rest → Q (.consSome nd rest)) : ∀ nd, P nd
  | .mk t e ch => hmk t e ch (NodeSlots.mutualIndSlots P Q hmk h0 h1 h2 ch)

/-- Joint structural induction over trie nodes and slot vectors (slots part). -/
theorem NodeSlots.mutualIndSlots (P : BallotBoxNode → Prop) (Q : NodeSlots → Prop)
    (hmk : ∀ t e ch, Q ch → P (.mk t e ch))
    (h0 : Q .nil) (h1 : ∀ rest, Q rest → Q (.consNone rest))
    (h2 : ∀ nd rest, P nd → Q rest → Q (.consSome nd rest)) : ∀ s, Q s
  | .nil => h0
  | .consNone rest => h1 rest (NodeSlots.mutualIndSlots P Q hmk h0 h1 h2 rest)
  | .consSome nd rest =>
    h2 nd rest (BallotBoxNode.mutualIndNode P Q hmk h0 h1 h2 nd)
      (NodeSlots.mutualIndSlots P Q hmk h0 h1 h2 rest)

end

theorem NodeSlots.length_setSlot (s : NodeSlots) : ∀ (i : Nat) (v : Option BallotBoxNode),
    (s.setSlot i v).length = s.length := by
  induction s using NodeSlots.recSimple with
  | h0 => intro i v; rfl
  | h1 rest ih => intro i v; cases i <;> cases v <;> simp [NodeSlots.setSlot, NodeSlots.length, ih]
  | h2 nd rest ih => intro i v; cases i <;> cases v <;> simp [NodeSlots.setSlot, NodeSlots.length, ih]

theorem NodeSlots.getSlot_setSlot_self (s : NodeSlots) : ∀ (i : Nat) (v : Option BallotBoxNode),
    i < s.length → (s.setSlot i v).getSlot i = v := by
  induction s using NodeSlots.recSimple with
  | h0 => intro i v h; simp [NodeSlots.length] at h
  | h1 rest ih =>
    intro i v h
    cases i <;> cases v <;>
      simp_all [NodeSlots.setSlot, NodeSlots.getSlot, NodeSlots.length, Nat.succ_lt_succ_iff]
  | h2 nd rest ih =>
    intro i v h
    cases i <;> cases v <;>
      simp_all [NodeSlots.setSlot, NodeSlots.getSlot, NodeSlots.length, Nat.succ_lt_succ_iff]

theorem NodeSlots.getSlot_setSlot_ne (s : NodeSlots) : ∀ (i j : Nat) (v : Option BallotBoxNode),
    j ≠ i → (s.setSlot i v).getSlot j = s.getSlot j := by
  induction s using NodeSlots.recSimple with
  | h0 => intro i j v h; rfl
  | h1 rest ih =>
    intro i j v h
    cases i <;> cases j <;> cases v <;>
      simp_all [NodeSlots.setSlot, NodeSlots.getSlot]
  | h2 nd rest ih =>
    intro i j v h
    cases i <;> cases j <;> cases v <;>
      simp_all [NodeSlots.setSlot, NodeSlots.getSlot]

theorem NodeSlots.getSlot_eq_none_of_le (s : NodeSlots) : ∀ i : Nat,
    s.length ≤ i → s.getSlot i = none := by
  induction s using NodeSlots.recSimple with
  | h0 => intro i h; rfl
  | h1 rest ih =>
    intro i h
    cases i <;> simp_all [NodeSlots.getSlot, NodeSlots.length, Nat.succ_le_succ_iff]
  | h2 nd rest ih =>
    intro i h
    cases i <;> simp_all [NodeSlots.getSlot, NodeSlots.length, Nat.succ_le_succ_iff]

theorem NodeSlots.lt_length_of_getSlot_some (s : NodeSlots) (i : Nat)
    (h : s.getSlot i ≠ none) : i < s.length := by
  by_contra hlt
  exact h (s.getSlot_eq_none_of_le i (Nat.le_of_not_lt hlt))

theorem NodeSlots.totalSum_setSlot (s : NodeSlots) : ∀ (i : Nat) (v : Option BallotBoxNode),
    i < s.length →
    (s.setSlot i v).totalSum + optTotal (s.getSlot i) = s.totalSum + optTotal v := by
  induction s using NodeSlots.recSimple with
  | h0 => intro i v h; simp [NodeSlots.length] at h
  | h1 rest ih =>
    intro i v h
    cases i with
    | zero =>
      cases v <;>
        simp [NodeSlots.setSlot, NodeSlots.getSlot, NodeSlots.totalSum, optTotal] <;> omega
    | succ j =>
      have hj : j < rest.length := by
        simpa [NodeSlots.length, Nat.succ_lt_succ_iff] using h
      have hrec := ih j v hj
      simpa [NodeSlots.setSlot, NodeSlots.getSlot, NodeSlots.totalSum] using hrec
  | h2 nd rest ih =>
    intro i v h
    cases i with
    | zero =>
      cases v <;>
        simp [NodeSlots.setSlot, NodeSlots.getSlot, NodeSlots.totalSum, optTotal] <;> omega
    | succ j =>
      have hj : j < rest.length := by
        simpa [NodeSlots.length, Nat.succ_lt_succ_iff] using h
      have hrec := ih j v hj
      simp only [NodeSlots.setSlot, NodeSlots.getSlot, NodeSlots.totalSum]
      omega

theorem NodeSlots.totalsList_length (s : NodeSlots) : s.totalsList.length = s.length := by
  induction s using NodeSlots.recSimple with
  | h0 => rfl
  | h1 rest ih => simp [NodeSlots.totalsList, NodeSlots.length, ih]
  | h2 nd rest ih => simp [NodeSlots.totalsList, NodeSlots.length, ih]

theorem NodeSlots.totalsList_getD (s : NodeSlots) : ∀ i : Nat,
    s.totalsList.getD i 0 = optTotal (s.getSlot i) := by
  induction s using NodeSlots.recSimple with
  | h0 => intro i; simp [NodeSlots.totalsList, NodeSlots.getSlot, optTotal]
  | h1 rest ih =>
    intro i
    cases i <;> simp_all [NodeSlots.totalsList, NodeSlots.getSlot, optTotal]
  | h2 nd rest ih =>
    intro i
    cases i <;> simp_all [NodeSlots.totalsList, NodeSlots.getSlot, optTotal]

theorem NodeSlots.totalSum_eq_sum_totalsList (s : NodeSlots) :
    s.totalSum = s.totalsList.sum := by
  induction s using NodeSlots.recSimple with
  | h0 => rfl
  | h1 rest ih => simp [NodeSlots.totalSum, NodeSlots.totalsList, ih]
  | h2 nd rest ih => simp [NodeSlots.totalSum, NodeSlots.totalsList, ih]

theorem NodeSlots.optTotal_getSlot_le (s : NodeSlots) : ∀ i : Nat,
    optTotal (s.getSlot i) ≤ s.totalSum := by
  induction s using NodeSlots.recSimple with
  | h0 => intro i; simp [NodeSlots.getSlot, optTotal]
  | h1 rest ih =>
    intro i
    cases i <;> simp_all [NodeSlots.getSlot, NodeSlots.totalSum, optTotal]
  | h2 nd rest ih =>
    intro i
    cases i with
    | zero => simp [NodeSlots.getSlot, NodeSlots.totalSum, optTotal]
    | succ j =>
      have := ih j
      simp only [NodeSlots.getSlot, NodeSlots.totalSum]
      omega

theorem NodeSlots.replicate_length (n : Nat) : (NodeSlots.replicate n).length = n := by
  induction n with
  | zero => rfl
  | succ n ih => simp [NodeSlots.replicate, NodeSlots.length, ih]

theorem NodeSlots.replicate_getSlot (n : Nat) : ∀ i : Nat,
    (NodeSlots.replicate n).getSlot i = none := by
  induction n with
  | zero => intro i; rfl
  | succ n ih => intro i; cases i <;> simp [NodeSlots.replicate, NodeSlots.getSlot, ih]

theorem NodeSlots.replicate_totalSum (n : Nat) : (NodeSlots.replicate n).totalSum = 0 := by
  induction n with
  | zero => rfl
  | succ n ih => simp [NodeSlots.replicate, NodeSlots.totalSum, ih]

theorem NodeSlots.replicate_slotsInvB (n : Nat) :
    (NodeSlots.replicate n).slotsInvB = true := by
  induction n with
  | zero => rfl
  | succ n ih => simp [NodeSlots.replicate, NodeSlots.slotsInvB, ih]

theorem NodeSlots.replicate_slotsWfB (n m : Nat) :
    (NodeSlots.replicate n).slotsWfB m = true := by
  induction n with
  | zero => rfl
  | succ n ih => simp [NodeSlots.replicate, NodeSlots.slotsWfB, ih]

theorem NodeSlots.slotsInvB_getSlot (s : NodeSlots) : ∀ (i : Nat) (nd : BallotBoxNode),
    s.slotsInvB = true → s.getSlot i = some nd → nd.invB = true := by
  induction s using NodeSlots.recSimple with
  | h0 => intro i nd _ h; simp [NodeSlots.getSlot] at h
  | h1 rest ih =>
    intro i nd hinv h
    cases i with
    | zero => simp [NodeSlots.getSlot] at h
    | succ j => exact ih j nd (by simpa [NodeSlots.slotsInvB] using hinv) h
  | h2 nd2 rest ih =>
    intro i nd hinv h
    rw [NodeSlots.slotsInvB, Bool.and_eq_true] at hinv
    cases i with
    | zero =>
      rw [NodeSlots.getSlot] at h
      injection h with h
      exact h ▸ hinv.1
    | succ j => exact ih j nd hinv.2 h

theorem NodeSlots.slotsWfB_getSlot (s : NodeSlots) : ∀ (n i : Nat) (nd : BallotBoxNode),
    s.slotsWfB n = true → s.getSlot i = some nd → nd.wfB n = true := by
  induction s using NodeSlots.recSimple with
  | h0 => intro n i nd _ h; simp [NodeSlots.getSlot] at h
  | h1 rest ih =>
    intro n i nd hwf h
    cases i with
    | zero => simp [NodeSlots.getSlot] at h
    | succ j => exact ih n j nd (by simpa [NodeSlots.slotsWfB] using hwf) h
  | h2 nd2 rest ih =>
    intro n i nd hwf h
    rw [NodeSlots.slotsWfB, Bool.and_eq_true] at hwf
    cases i with
    | zero =>
      rw [NodeSlots.getSlot] at h
      injection h with h
      exact h ▸ hwf.1
    | succ j => exact ih n j nd hwf.2 h

theorem NodeSlots.slotsInvB_setSlot (s : NodeSlots) : ∀ (i : Nat) (v : Option BallotBoxNode),
    s.slotsInvB = true → (∀ nd, v = some nd → nd.invB = true) →
    (s.setSlot i v).slotsInvB = true := by
  induction s using NodeSlots.recSimple with
  | h0 => intro i v h _; exact h
  | h1 rest ih =>
    intro i v hinv hv
    cases i <;> cases hveq : v <;>
      simp_all [NodeSlots.setSlot, NodeSlots.slotsInvB]
  | h2 nd rest ih =>
    intro i v hinv hv
    cases i <;> cases hveq : v <;>
      simp_all [NodeSlots.setSlot, NodeSlots.slotsInvB]

theorem NodeSlots.slotsWfB_setSlot (s : NodeSlots) : ∀ (n i : Nat) (v : Option BallotBoxNode),
    s.slotsWfB n = true → (∀ nd, v = some nd → nd.wfB n = true) →
    (s.setSlot i v).slotsWfB n = true := by
  induction s using NodeSlots.recSimple with
  | h0 => intro n i v h _; exact h
  | h1 rest ih =>
    intro n i v hwf hv
    cases i <;> cases hveq : v <;>
      simp_all [NodeSlots.setSlot, NodeSlots.slotsWfB]
  | h2 nd rest ih =>
    intro n i v hwf hv
    cases i <;> cases hveq : v <;>
      simp_all [NodeSlots.setSlot, NodeSlots.slotsWfB]

/-- Joint induction packaged as a pair of universal statements. -/
theorem mutualIndPair (P : BallotBoxNode → Prop) (Q : NodeSlots → Prop)
    (hmk : ∀ t e ch, Q ch → P (.mk t e ch))
    (h0 : Q .nil) (h1 : ∀ rest, Q rest → Q (.consNone rest))
    (h2 : ∀ nd rest, P nd → Q rest → Q (.consSome nd rest)) :
    (∀ nd, P nd) ∧ (∀ s, Q s) :=
  ⟨BallotBoxNode.mutualIndNode P Q hmk h0 h1 h2, NodeSlots.mutualIndSlots P Q hmk h0 h1 h2⟩

theorem sumQ_nil : sumQ [] = 0 := rfl

theorem sumQ_append (a b : List (List Nat × Nat)) : sumQ (a ++ b) = sumQ a + sumQ b := by
  simp [sumQ]

/-- Under the trie invariant, the number of ballots stored beneath a node is
exactly its `total_beneath` counter (and likewise for whole slot vectors). -/
theorem esum_eq_total_pair :
    (∀ nd : BallotBoxNode, nd.invB = true → nd.esum = nd.total_beneath) ∧
    (∀ s : NodeSlots, s.slotsInvB = true → s.slotsEsum = s.totalSum) := by
  refine mutualIndPair _ _ ?_ ?_ ?_ ?_
  · intro t e ch hch hinv
    rw [BallotBoxNode.invB, Bool.and_eq_true, beq_iff_eq] at hinv
    simp [BallotBoxNode.esum, BallotBoxNode.total_beneath, hch hinv.2, hinv.1]
  · intro _; rfl
  · intro rest ih hinv
    rw [NodeSlots.slotsInvB] at hinv
    simp [NodeSlots.slotsEsum, NodeSlots.totalSum, ih hinv]
  · intro nd rest ihn ihr hinv
    rw [NodeSlots.slotsInvB, Bool.and_eq_true] at hinv
    simp [NodeSlots.slotsEsum, NodeSlots.totalSum, ihn hinv.1, ihr hinv.2]

/-- Redistribution collects exactly the ballots stored beneath the detached
node: the quantities of the emitted pending votes sum to the subtree's
`endings` sum. -/
theorem distribute_sumQ_pair :
    (∀ nd : BallotBoxNode, ∀ cur, sumQ (nd.distribute cur) = nd.esum) ∧
    (∀ s : NodeSlots, ∀ i cur, sumQ (s.distributeFrom i cur) = s.slotsEsum) := by
  refine mutualIndPair (fun nd => ∀ cur, sumQ (nd.distribute cur) = nd.esum)
    (fun s => ∀ i cur, sumQ (s.distributeFrom i cur) = s.slotsEsum) ?_ ?_ ?_ ?_
  · intro t e ch hch cur
    rw [BallotBoxNode.distribute, sumQ_append, hch]
    by_cases he : e > 0 <;> simp [he, sumQ, BallotBoxNode.esum] <;> omega
  · intro i cur; rfl
  · intro rest ih i cur
    rw [NodeSlots.distributeFrom, NodeSlots.slotsEsum, ih]
  · intro nd rest ihn ihr i cur
    rw [NodeSlots.distributeFrom, sumQ_append, NodeSlots.slotsEsum, ihn, ihr]

/-- Every candidate index occurring in a pending vote emitted by `distribute`
from a structurally well-formed subtree is a valid candidate index. -/
theorem distribute_mem_lt_pair :
    (∀ nd : BallotBoxNode, ∀ n cur, nd.wfB n = true → (∀ c ∈ cur, c < n) →
      ∀ vq ∈ nd.distribute cur, ∀ c ∈ vq.1, c < n) ∧
    (∀ s : NodeSlots, ∀ n i cur, s.slotsWfB n = true → i + s.length ≤ n →
      (∀ c ∈ cur, c < n) → ∀ vq ∈ s.distributeFrom i cur, ∀ c ∈ vq.1, c < n) := by
  refine mutualIndPair
    (fun nd => ∀ n cur, nd.wfB n = true → (∀ c ∈ cur, c < n) →
      ∀ vq ∈ nd.distribute cur, ∀ c ∈ vq.1, c < n)
    (fun s => ∀ n i cur, s.slotsWfB n = true → i + s.length ≤ n →
      (∀ c ∈ cur, c < n) → ∀ vq ∈ s.distributeFrom i cur, ∀ c ∈ vq.1, c < n) ?_ ?_ ?_ ?_
  · intro t e ch hch n cur hwf hcur vq hvq c hc
    rw [BallotBoxNode.wfB, Bool.and_eq_true, beq_iff_eq] at hwf
    rw [BallotBoxNode.distribute, List.mem_append] at hvq
    rcases hvq with hvq | hvq
    · exact hch n 0 cur hwf.2 (by omega) hcur vq hvq c hc
    · by_cases he : e > 0 <;> simp [he] at hvq
      subst hvq
      exact hcur c hc
  · intro n i cur _ _ _ vq hvq
    simp [NodeSlots.distributeFrom] at hvq
  · intro rest ih n i cur hwf hle hcur vq hvq c hc
    rw [NodeSlots.slotsWfB] at hwf
    rw [NodeSlots.distributeFrom] at hvq
    exact ih n (i + 1) cur hwf (by rw [NodeSlots.length] at hle; omega) hcur vq hvq c hc
  · intro nd rest ihn ihr n i cur hwf hle hcur vq hvq c hc
    rw [NodeSlots.slotsWfB, Bool.and_eq_true] at hwf
    rw [NodeSlots.length] at hle
    rw [NodeSlots.distributeFrom, List.mem_append] at hvq
    rcases hvq with hvq | hvq
    · refine ihn n (cur ++ [i]) hwf.1 ?_ vq hvq c hc
      intro d hd
      rw [List.mem_append] at hd
      rcases hd with hd | hd
      · exact hcur d hd
      · simp at hd; omega
    · exact ihr n (i + 1) cur hwf.2 (by omega) hcur vq hvq c hc

theorem list_getD_set_self {α : Type} (l : List α) : ∀ (i : Nat) (v d : α),
    i < l.length → (l.set i v).getD i d = v := by
  induction l with
  | nil => intro i v d h; simp at h
  | cons x xs ih =>
    intro i v d h
    cases i with
    | zero => rfl
    | succ j => exact ih j v d (by simpa [Nat.succ_lt_succ_iff] using h)

theorem list_getD_set_ne {α : Type} (l : List α) : ∀ (i j : Nat) (v d : α),
    j ≠ i → (l.set i v).getD j d = l.getD j d := by
  induction l with
  | nil => intro i j v d h; rfl
  | cons x xs ih =>
    intro i j v d h
    cases i with
    | zero => cases j with
      | zero => exact absurd rfl h
      | succ k => rfl
    | succ i2 => cases j with
      | zero => rfl
      | succ k => exact ih i2 k v d (by omega)

theorem list_set_getD_self {α : Type} (l : List α) : ∀ (i : Nat) (v : α),
    l.getD i v = v → l.set i v = l := by
  induction l with
  | nil => intro i v _; rfl
  | cons x xs ih =>
    intro i v h
    cases i with
    | zero => simp_all
    | succ j => simp_all [ih j v]

/-- The trie-insertion walk touches no top-level slot other than the ballot's
first preference. -/
theorem pushPath_getSlot_ne (n q : Nat) (path : List Nat) (slots : NodeSlots) (d : Nat)
    (hne : path ≠ []) (hd : d ≠ path.headD 0) :
    (pushPath n q path slots).getSlot d = slots.getSlot d := by
  match path with
  | [] => exact absurd rfl hne
  | [c] =>
    rw [pushPath]
    exact slots.getSlot_setSlot_ne c d _ (by simpa using hd)
  | c :: c2 :: rest =>
    rw [pushPath]
    exact slots.getSlot_setSlot_ne c d _ (by simpa using hd)

/-- Main preservation property of the trie-insertion walk: for a non-empty
in-range ballot, the walk keeps the slot count, structural well-formedness
and the trie invariant, and adds exactly `q` to the sum of totals. -/
theorem pushPath_preserves (n q : Nat) : ∀ (path : List Nat) (slots : NodeSlots),
    path ≠ [] → (∀ c ∈ path, c < n) → slots.length = n →
    slots.slotsWfB n = true → slots.slotsInvB = true →
    (pushPath n q path slots).length = n ∧
    (pushPath n q path slots).slotsWfB n = true ∧
    (pushPath n q path slots).slotsInvB = true ∧
    (pushPath n q path slots).totalSum = slots.totalSum + q := by
  intro path
  induction path with
  | nil => intro slots h; exact absurd rfl h
  | cons c tail ih =>
    intro slots _ hmem hlen hwf hinv
    have hc : c < n := hmem c (by simp)
    have hcslots : c < slots.length := by omega
    have hnd : ∀ nd0, slots.getSlot c = some nd0 → nd0.wfB n = true ∧ nd0.invB = true :=
      fun nd0 h => ⟨slots.slotsWfB_getSlot n c nd0 hwf h, slots.slotsInvB_getSlot c nd0 hinv h⟩
    have hbase : ((slots.getSlot c).getD (BallotBoxNode.new n)).wfB n = true ∧
        ((slots.getSlot c).getD (BallotBoxNode.new n)).invB = true ∧
        ((slots.getSlot c).getD (BallotBoxNode.new n)).total_beneath =
          optTotal (slots.getSlot c) := by
      cases hsl : slots.getSlot c with
      | none =>
        refine ⟨?_, ?_, ?_⟩ <;>
          simp [BallotBoxNode.new, BallotBoxNode.wfB, BallotBoxNode.invB,
            BallotBoxNode.total_beneath, NodeSlots.replicate_length,
            NodeSlots.replicate_slotsWfB, NodeSlots.replicate_slotsInvB,
            NodeSlots.replicate_totalSum, optTotal]
      | some nd0 =>
        exact ⟨(hnd nd0 hsl).1, (hnd nd0 hsl).2, by simp [optTotal]⟩
    set nd := (slots.getSlot c).getD (BallotBoxNode.new n) with hnddef
    obtain ⟨hndwf, hndinv, hndtot⟩ := hbase
    obtain ⟨t, e, ch, hmk⟩ : ∃ t e ch, nd = BallotBoxNode.mk t e ch := by
      cases nd with | mk t e ch => exact ⟨t, e, ch, rfl⟩
    rw [hmk] at hndwf hndinv
    rw [BallotBoxNode.wfB, Bool.and_eq_true, beq_iff_eq] at hndwf
    rw [BallotBoxNode.invB, Bool.and_eq_true, beq_iff_eq] at hndinv
    rw [hmk] at hndtot
    rw [BallotBoxNode.total_beneath] at hndtot
    cases tail with
    | nil =>
      rw [pushPath, ← hnddef, hmk]
      simp only [BallotBoxNode.total_beneath, BallotBoxNode.endings, BallotBoxNode.children]
      have hinvnew : (BallotBoxNode.mk (t + q) (e + q) ch).invB = true := by
        rw [BallotBoxNode.invB, Bool.and_eq_true, beq_iff_eq]
        exact ⟨by omega, hndinv.2⟩
      have hwfnew : (BallotBoxNode.mk (t + q) (e + q) ch).wfB n = true := by
        rw [BallotBoxNode.wfB, Bool.and_eq_true, beq_iff_eq]
        exact ⟨hndwf.1, hndwf.2⟩
      refine ⟨?_, ?_, ?_, ?_⟩
      · rw [slots.length_setSlot]; exact hlen
      · exact slots.slotsWfB_setSlot n c _ hwf (fun nd2 h2 => by
          injection h2 with h2; exact h2 ▸ hwfnew)
      · exact slots.slotsInvB_setSlot c _ hinv (fun nd2 h2 => by
          injection h2 with h2; exact h2 ▸ hinvnew)
      · have := slots.totalSum_setSlot c
          (some (BallotBoxNode.mk (t + q) (e + q) ch)) hcslots
        rw [optTotal, BallotBoxNode.total_beneath] at this
        omega
    | cons c2 rest =>
      have hrec := ih ch (by simp) (fun d hd => hmem d (by simp [hd]))
        hndwf.1 hndwf.2 hndinv.2
      rw [pushPath, ← hnddef, hmk]
      simp only [BallotBoxNode.total_beneath, BallotBoxNode.endings, BallotBoxNode.children]
      have hinvnew : (BallotBoxNode.mk (t + q) e (pushPath n q (c2 :: rest) ch)).invB = true := by
        rw [BallotBoxNode.invB, Bool.and_eq_true, beq_iff_eq]
        refine ⟨?_, hrec.2.2.1⟩
        rw [hrec.2.2.2]
        omega
      have hwfnew : (BallotBoxNode.mk (t + q) e (pushPath n q (c2 :: rest) ch)).wfB n = true := by
        rw [BallotBoxNode.wfB, Bool.and_eq_true, beq_iff_eq]
        exact ⟨hrec.1, hrec.2.1⟩
      refine ⟨?_, ?_, ?_, ?_⟩
      · rw [slots.length_setSlot]; exact hlen
      · exact slots.slotsWfB_setSlot n c _ hwf (fun nd2 h2 => by
          injection h2 with h2; exact h2 ▸ hwfnew)
      · exact slots.slotsInvB_setSlot c _ hinv (fun nd2 h2 => by
          injection h2 with h2; exact h2 ▸ hinvnew)
      · have := slots.totalSum_setSlot c
          (some (BallotBoxNode.mk (t + q) e (pushPath n q (c2 :: rest) ch))) hcslots
        rw [optTotal, BallotBoxNode.total_beneath] at this
        omega

/-- Unfolded form of the box invariant. -/
theorem BallotBox.invB_iff (b : BallotBox) : b.invB = true ↔
    (b.nodes.length = b.candidates.length ∧
     b.eliminated.length = b.candidates.length ∧
     b.nodes.slotsWfB b.candidates.length = true ∧
     b.nodes.slotsInvB = true ∧
     b.total_votes = b.nodes.totalSum ∧
     ∀ c, c < b.candidates.length → b.eliminated.getD c false = true →
       b.nodes.getSlot c = none) := by
  rw [BallotBox.invB]
  simp only [Bool.and_eq_true, beq_iff_eq, List.all_eq_true, List.mem_range,
    Option.isNone_iff_eq_none, Bool.or_eq_true, Bool.not_eq_true']
  constructor
  · rintro ⟨⟨⟨⟨⟨h1, h2⟩, h3⟩, h4⟩, h5⟩, h6⟩
    refine ⟨h1, h2, h3, h4, h5, ?_⟩
    intro c hc helim
    rcases h6 c hc with h | h
    · rw [helim] at h; cases h
    · exact h
  · rintro ⟨h1, h2, h3, h4, h5, h6⟩
    refine ⟨⟨⟨⟨⟨h1, h2⟩, h3⟩, h4⟩, h5⟩, ?_⟩
    intro c hc
    by_cases he : b.eliminated.getD c false = true
    · exact Or.inr (h6 c hc he)
    · exact Or.inl (by simpa using he)

/-- The empty ballot box satisfies the box invariant. -/
theorem BallotBox.new_invB (cs : List String) : (BallotBox.new cs).invB = true := by
  rw [BallotBox.invB_iff]
  refine ⟨?_, ?_, ?_, ?_, ?_, ?_⟩
  · exact NodeSlots.replicate_length _
  · simp [BallotBox.new]
  · exact NodeSlots.replicate_slotsWfB _ _
  · exact NodeSlots.replicate_slotsInvB _
  · simp [BallotBox.new, NodeSlots.replicate_totalSum]
  · intro c _ _; exact NodeSlots.replicate_getSlot _ c

theorem BallotBox.push_candidates (b : BallotBox) (ballot : List Nat) (q : Nat) :
    (b.push ballot q).candidates = b.candidates := by
  cases ballot <;> rfl

/-- Pushing a non-empty in-range ballot preserves the box invariant. -/
theorem BallotBox.push_invB (b : BallotBox) (ballot : List Nat) (q : Nat)
    (hne : ballot ≠ []) (hb : ∀ c ∈ ballot, c < b.candidates.length)
    (h : b.invB = true) : (b.push ballot q).invB = true := by
  obtain ⟨first, rest, rfl⟩ : ∃ f r, ballot = f :: r := by
    cases ballot with
    | nil => exact absurd rfl hne
    | cons f r => exact ⟨f, r, rfl⟩
  rw [BallotBox.invB_iff] at h ⊢
  obtain ⟨h1, h2, h3, h4, h5, h6⟩ := h
  have hfirst : first < b.candidates.length := hb first (by simp)
  have hpp := pushPath_preserves b.candidates.length q (first :: rest) b.nodes
    (by simp) hb h1 h3 h4
  simp only [BallotBox.push]
  refine ⟨hpp.1, ?_, hpp.2.1, hpp.2.2.1, ?_, ?_⟩
  · rw [List.length_set]; exact h2
  · rw [hpp.2.2.2]; omega
  · intro c hc helim
    by_cases hcf : c = first
    · subst hcf
      rw [list_getD_set_self b.eliminated c false false (by omega)] at helim
      cases helim
    · rw [list_getD_set_ne b.eliminated first c false false hcf] at helim
      rw [pushPath_getSlot_ne _ _ _ _ _ (by simp) (by simpa using hcf)]
      exact h6 c hc helim

/-- If some selected candidate's slot is already empty, the detach loop hits
the `unwrap` panic. -/
theorem BallotBox.detachLoop_fail_of_none (rb : Bool) : ∀ (sel : List Nat) (b : BallotBox)
    (acc : List (List Nat × Nat)) (c : Nat), c ∈ sel → b.nodes.getSlot c = none →
    BallotBox.detachLoop rb sel b acc = none := by
  intro sel
  induction sel with
  | nil => intro b acc c hc; simp at hc
  | cons c1 rest ih =>
    intro b acc c hc hnone
    rw [BallotBox.detachLoop]
    rcases List.mem_cons.mp hc with rfl | hcr
    · rw [hnone]
    · cases hslot : b.nodes.getSlot c1 with
      | none => rfl
      | some nd =>
        apply ih _ _ c hcr
        by_cases hcc : c = c1
        · rw [hcc] at hnone; rw [hnone] at hslot; cases hslot
        · simpa using (b.nodes.getSlot_setSlot_ne c1 c none hcc).trans hnone

/-- Full characterisation of the detach phase of `runoff_or_promote`: the box
invariant is preserved, total votes drop by exactly the totals of the
detached subtrees (which equal the quantities of the collected pending
votes), pending-vote entries are valid candidate indices, selected slots are
emptied and no other slot changes, and the eliminated flags gain exactly the
selected candidates when (and only when) the operation is a runoff. -/
theorem BallotBox.detachLoop_spec (rb : Bool) : ∀ (sel : List Nat) (b : BallotBox)
    (acc : List (List Nat × Nat)) (b2 : BallotBox) (pend : List (List Nat × Nat)),
    b.invB = true →
    BallotBox.detachLoop rb sel b acc = some (b2, pend) →
    b2.invB = true ∧
    b2.candidates = b.candidates ∧
    b2.total_votes + sumQ pend = b.total_votes + sumQ acc ∧
    sumQ pend = sumQ acc + (sel.map (fun c => optTotal (b.nodes.getSlot c))).sum ∧
    (∀ vq ∈ pend, vq ∈ acc ∨ ∀ c ∈ vq.1, c < b.candidates.length) ∧
    (∀ c, b2.nodes.getSlot c = if c ∈ sel then none else b.nodes.getSlot c) ∧
    (∀ c, b2.eliminated.getD c false =
      (b.eliminated.getD c false || (rb && decide (c ∈ sel)))) := by
  intro sel
  induction sel with
  | nil =>
    intro b acc b2 pend hinv h
    rw [BallotBox.detachLoop] at h
    injection h with h
    injection h with hb2 hpend
    subst hb2; subst hpend
    refine ⟨hinv, rfl, rfl, by simp, fun vq hvq => Or.inl hvq, fun c => by simp,
      fun c => by simp⟩
  | cons c1 rest ih =>
    intro b acc b2 pend hinv h
    rw [BallotBox.detachLoop] at h
    cases hslot : b.nodes.getSlot c1 with
    | none => rw [hslot] at h; cases h
    | some nd =>
      rw [hslot] at h
      rw [BallotBox.invB_iff] at hinv
      obtain ⟨h1, h2, h3, h4, h5, h6⟩ := hinv
      have hc1nodes : c1 < b.nodes.length :=
        b.nodes.lt_length_of_getSlot_some c1 (by rw [hslot]; exact Option.some_ne_none nd)
      have hc1 : c1 < b.candidates.length := by omega
      have hndinv : nd.invB = true := b.nodes.slotsInvB_getSlot c1 nd h4 hslot
      have hndwf : nd.wfB b.candidates.length = true :=
        b.nodes.slotsWfB_getSlot b.candidates.length c1 nd h3 hslot
      have hesum : nd.esum = nd.total_beneath := esum_eq_total_pair.1 nd hndinv
      have htble : nd.total_beneath ≤ b.nodes.totalSum := by
        have := b.nodes.optTotal_getSlot_le c1
        rw [hslot] at this
        simpa [optTotal] using this
      have htot := b.nodes.totalSum_setSlot c1 none hc1nodes
      rw [hslot] at htot
      simp only [optTotal] at htot
      -- the intermediate box after detaching candidate c1
      set b' : BallotBox :=
        { b with
          nodes := b.nodes.setSlot c1 none
          total_votes := b.total_votes - nd.total_beneath
          eliminated := if rb then b.eliminated.set c1 true else b.eliminated }
        with hbdefn
      have hbelimlen : b'.eliminated.length = b.candidates.length := by
        rw [hbdefn]
        cases rb <;> simp [List.length_set, h2]
      have hbgetD : ∀ c, c ≠ c1 → b'.eliminated.getD c false = b.eliminated.getD c false := by
        intro c hcc
        rw [hbdefn]
        cases rb
        · rfl
        · simpa using list_getD_set_ne b.eliminated c1 c true false hcc
      have hbgetDc1 : rb = true → b'.eliminated.getD c1 false = true := by
        intro hrb
        rw [hbdefn, hrb]
        simpa using list_getD_set_self b.eliminated c1 true false (by omega)
      have hbinv : b'.invB = true := by
        rw [BallotBox.invB_iff]
        refine ⟨?_, hbelimlen, ?_, ?_, ?_, ?_⟩
        · simpa [hbdefn, b.nodes.length_setSlot] using h1
        · exact b.nodes.slotsWfB_setSlot _ c1 none h3 (fun nd2 h2 => by cases h2)
        · exact b.nodes.slotsInvB_setSlot c1 none h4 (fun nd2 h2 => by cases h2)
        · show b.total_votes - nd.total_beneath = (b.nodes.setSlot c1 none).totalSum
          omega
        · intro c hc helim
          by_cases hcc : c = c1
          · subst hcc
            show (b.nodes.setSlot c none).getSlot c = none
            rw [b.nodes.getSlot_setSlot_self c none hc1nodes]
          · have : b.nodes.getSlot c = none := by
              refine h6 c hc ?_
              rw [← hbgetD c hcc]
              exact helim
            show (b.nodes.setSlot c1 none).getSlot c = none
            rw [b.nodes.getSlot_setSlot_ne c1 c none hcc]
            exact this
      have h9 : BallotBox.detachLoop rb rest b' (acc ++ nd.distribute []) =
          some (b2, pend) := h
      have hrec := ih b' (acc ++ nd.distribute []) b2 pend hbinv h9
      obtain ⟨g1, g2, g3, g4, g5, g6, g7⟩ := hrec
      have hc1notrest : c1 ∉ rest := by
        intro hmem
        have hfail := BallotBox.detachLoop_fail_of_none rb rest b'
          (acc ++ nd.distribute []) c1 hmem
          (by
            show (b.nodes.setSlot c1 none).getSlot c1 = none
            rw [b.nodes.getSlot_setSlot_self c1 none hc1nodes])
        rw [hfail] at h9
        cases h9
      have hsumdist : sumQ (nd.distribute []) = nd.total_beneath := by
        rw [distribute_sumQ_pair.1 nd [], hesum]
      have hrestslots : ∀ d ∈ rest, b'.nodes.getSlot d = b.nodes.getSlot d := by
        intro d hd
        show (b.nodes.setSlot c1 none).getSlot d = b.nodes.getSlot d
        exact b.nodes.getSlot_setSlot_ne c1 d none (fun hh => hc1notrest (hh ▸ hd))
      refine ⟨g1, g2, ?_, ?_, ?_, ?_, ?_⟩
      · rw [sumQ_append, hsumdist] at g3
        have hbtv : b'.total_votes = b.total_votes - nd.total_beneath := rfl
        rw [hbtv] at g3
        clear h h9 g4
        omega
      · rw [sumQ_append, hsumdist] at g4
        have hmapeq : rest.map (fun c => optTotal (b'.nodes.getSlot c)) =
            rest.map (fun c => optTotal (b.nodes.getSlot c)) :=
          List.map_congr_left (fun d hd => by rw [hrestslots d hd])
        rw [hmapeq] at g4
        have hfc1 : optTotal (b.nodes.getSlot c1) = nd.total_beneath := by
          simp [hslot, optTotal]
        rw [List.map_cons, List.sum_cons, hfc1]
        omega
      · intro vq hvq
        rcases g5 vq hvq with hin | hbound
        · rcases List.mem_append.mp hin with hin | hin
          · exact Or.inl hin
          · exact Or.inr (distribute_mem_lt_pair.1 nd b.candidates.length [] hndwf
              (by simp) vq hin)
        · exact Or.inr hbound
      · intro c
        rw [g6 c]
        by_cases hcr : c ∈ rest
        · simp [hcr, List.mem_cons]
        · by_cases hcc : c = c1
          · subst hcc
            simp only [hcr, if_false, List.mem_cons, true_or, if_true]
            show (b.nodes.setSlot c none).getSlot c = none
            rw [b.nodes.getSlot_setSlot_self c none hc1nodes]
          · have : (c ∈ c1 :: rest) = False := by
              simp [List.mem_cons, hcc, hcr]
            simp only [hcr, if_false, this, if_false]
            exact b.nodes.getSlot_setSlot_ne c1 c none hcc
      · intro c
        rw [g7 c]
        by_cases hcc : c = c1
        · subst hcc
          cases rb with
          | false => simp [hbgetD, hbdefn]
          | true =>
            rw [hbgetDc1 rfl]
            simp [List.mem_cons]
        · rw [hbgetD c hcc]
          by_cases hcr : c ∈ rest <;>
            simp [List.mem_cons, hcc, hcr]

/-- Characterisation of `Ballot::remove_candidates`: it returns the
order-preserving filter of the ballot (`none` when nothing survives). -/
theorem Ballot.remove_candidates_eq_none (v r : List Nat) :
    Ballot.remove_candidates v r = none ↔ ∀ c ∈ v, c ∈ r := by
  rw [Ballot.remove_candidates]
  constructor
  · intro h c hc
    cases hf : v.filter (fun c => !(r.contains c)) with
    | nil =>
      by_contra hcr
      have : c ∈ v.filter (fun c => !(r.contains c)) := by
        rw [List.mem_filter]
        exact ⟨hc, by simpa using hcr⟩
      rw [hf] at this
      cases this
    | cons x xs => rw [hf] at h; cases h
  · intro h
    have hf : v.filter (fun c => !(r.contains c)) = [] := by
      rw [List.filter_eq_nil_iff]
      intro c hc
      simpa using h c hc
    rw [hf]

theorem Ballot.remove_candidates_eq_some (v r v' : List Nat)
    (h : Ballot.remove_candidates v r = some v') :
    v' = v.filter (fun c => !(r.contains c)) ∧ v' ≠ [] := by
  rw [Ballot.remove_candidates] at h
  cases hf : v.filter (fun c => !(r.contains c)) with
  | nil => rw [hf] at h; cases h
  | cons x xs =>
    rw [hf] at h
    injection h with h
    subst h
    exact ⟨rfl, by simp⟩

theorem Ballot.remove_candidates_mem (v r v' : List Nat)
    (h : Ballot.remove_candidates v r = some v') :
    ∀ c ∈ v', c ∈ v ∧ c ∉ r := by
  obtain ⟨hv', _⟩ := Ballot.remove_candidates_eq_some v r v' h
  intro c hc
  rw [hv', List.mem_filter] at hc
  exact ⟨hc.1, by simpa using hc.2⟩

theorem BallotBox.mem_eliminatedList (b : BallotBox) (c : Nat) :
    c ∈ b.eliminatedList ↔
      (c < b.candidates.length ∧ b.eliminated.getD c false = true) := by
  simp [BallotBox.eliminatedList, List.mem_filter, List.mem_range]

theorem list_headD_mem (l : List Nat) (h : l ≠ []) : l.headD 0 ∈ l := by
  cases l with
  | nil => exact absurd rfl h
  | cons x xs => simp

theorem BallotBox.push_total_votes (b : BallotBox) (v : List Nat) (q : Nat)
    (hne : v ≠ []) : (b.push v q).total_votes = b.total_votes + q := by
  cases v with
  | nil => exact absurd rfl hne
  | cons x xs => rfl

theorem BallotBox.push_eliminated_of_flag_false (b : BallotBox) (v : List Nat) (q : Nat)
    (hne : v ≠ []) (hd : b.eliminated.getD (v.headD 0) false = false) :
    (b.push v q).eliminated = b.eliminated := by
  cases v with
  | nil => exact absurd rfl hne
  | cons x xs =>
    show b.eliminated.set x false = b.eliminated
    exact list_set_getD_self b.eliminated x false (by simpa using hd)

theorem BallotBox.push_getSlot_ne (b : BallotBox) (v : List Nat) (q : Nat) (d : Nat)
    (hne : v ≠ []) (hd : d ≠ v.headD 0) :
    (b.push v q).nodes.getSlot d = b.nodes.getSlot d := by
  cases v with
  | nil => exact absurd rfl hne
  | cons x xs =>
    show (pushPath b.candidates.length q (x :: xs) b.nodes).getSlot d = b.nodes.getSlot d
    exact pushPath_getSlot_ne _ _ _ _ _ (by simp) (by simpa using hd)

theorem sumQ_cons (vq : List Nat × Nat) (votes : List (List Nat × Nat)) :
    sumQ (vq :: votes) = vq.2 + sumQ votes := by
  simp [sumQ]

theorem exhaustedSum_cons_none (elims : List Nat) (vq : List Nat × Nat)
    (votes : List (List Nat × Nat)) (h : Ballot.remove_candidates vq.1 elims = none) :
    exhaustedSum elims (vq :: votes) = vq.2 + exhaustedSum elims votes := by
  rw [exhaustedSum, exhaustedSum, List.filter_cons]
  simp [h, sumQ]

theorem exhaustedSum_cons_some (elims : List Nat) (vq : List Nat × Nat)
    (votes : List (List Nat × Nat)) (v : List Nat)
    (h : Ballot.remove_candidates vq.1 elims = some v) :
    exhaustedSum elims (vq :: votes) = exhaustedSum elims votes := by
  rw [exhaustedSum, exhaustedSum, List.filter_cons]
  simp [h]

/-- Characterisation of the re-insertion phase of `runoff_or_promote`: with a
fixed eliminated set matching the box's flags, folding the pending votes
through strip-and-push preserves the invariant, the candidate list and the
eliminated flags, adds back exactly the non-exhausted quantities, and never
touches the top-level slot of an eliminated candidate. -/
theorem BallotBox.pushFold_spec (elims : List Nat) :
    ∀ (votes : List (List Nat × Nat)) (b : BallotBox),
    b.invB = true →
    (∀ c, c ∈ elims ↔ (c < b.candidates.length ∧ b.eliminated.getD c false = true)) →
    (∀ vq ∈ votes, ∀ c ∈ vq.1, c < b.candidates.length) →
    ((votes.foldl (fun bb vq =>
        match Ballot.remove_candidates vq.1 elims with
        | none => bb
        | some v => bb.push v vq.2) b).invB = true ∧
     (votes.foldl (fun bb vq =>
        match Ballot.remove_candidates vq.1 elims with
        | none => bb
        | some v => bb.push v vq.2) b).candidates = b.candidates ∧
     (votes.foldl (fun bb vq =>
        match Ballot.remove_candidates vq.1 elims with
        | none => bb
        | some v => bb.push v vq.2) b).eliminated = b.eliminated ∧
     (votes.foldl (fun bb vq =>
        match Ballot.remove_candidates vq.1 elims with
        | none => bb
        | some v => bb.push v vq.2) b).total_votes + exhaustedSum elims votes =
       b.total_votes + sumQ votes ∧
     (∀ c ∈ elims, (votes.foldl (fun bb vq =>
        match Ballot.remove_candidates vq.1 elims with
        | none => bb
        | some v => bb.push v vq.2) b).nodes.getSlot c = b.nodes.getSlot c)) := by
  intro votes
  induction votes with
  | nil =>
    intro b hinv hiff hbound
    exact ⟨hinv, rfl, rfl, by simp [exhaustedSum, sumQ], fun c _ => rfl⟩
  | cons vq votes ih =>
    intro b hinv hiff hbound
    rw [List.foldl_cons]
    cases hrm : Ballot.remove_candidates vq.1 elims with
    | none =>
      have hstep := ih b hinv hiff (fun w hw => hbound w (by simp [hw]))
      simp only at hstep ⊢
      refine ⟨hstep.1, hstep.2.1, hstep.2.2.1, ?_, hstep.2.2.2.2⟩
      rw [exhaustedSum_cons_none elims vq votes hrm, sumQ_cons]
      have := hstep.2.2.2.1
      omega
    | some v =>
      obtain ⟨hvfil, hvne⟩ := Ballot.remove_candidates_eq_some vq.1 elims v hrm
      have hvmem := Ballot.remove_candidates_mem vq.1 elims v hrm
      have hvbound : ∀ c ∈ v, c < b.candidates.length :=
        fun c hc => hbound vq (by simp) c (hvmem c hc).1
      have hfirstmem : v.headD 0 ∈ v := list_headD_mem v hvne
      have hfirstlt : v.headD 0 < b.candidates.length := hvbound _ hfirstmem
      have hfirstnotelim : v.headD 0 ∉ elims := (hvmem _ hfirstmem).2
      have hfirstflag : b.eliminated.getD (v.headD 0) false = false := by
        by_contra hx
        exact hfirstnotelim ((hiff (v.headD 0)).mpr
          ⟨hfirstlt, by simpa using hx⟩)
      have helim : (b.push v vq.2).eliminated = b.eliminated :=
        b.push_eliminated_of_flag_false v vq.2 hvne hfirstflag
      have hcand : (b.push v vq.2).candidates = b.candidates :=
        b.push_candidates v vq.2
      have hinv2 : (b.push v vq.2).invB = true :=
        b.push_invB v vq.2 hvne hvbound hinv
      have hiff2 : ∀ c, c ∈ elims ↔
          (c < (b.push v vq.2).candidates.length ∧
            (b.push v vq.2).eliminated.getD c false = true) := by
        intro c
        rw [hcand, helim]
        exact hiff c
      have hbound2 : ∀ w ∈ votes, ∀ c ∈ w.1, c < (b.push v vq.2).candidates.length := by
        rw [hcand]
        exact fun w hw => hbound w (by simp [hw])
      have hstep := ih (b.push v vq.2) hinv2 hiff2 hbound2
      simp only at hstep ⊢
      refine ⟨hstep.1, hstep.2.1.trans hcand, hstep.2.2.1.trans helim, ?_, ?_⟩
      · rw [exhaustedSum_cons_some elims vq votes v hrm, sumQ_cons]
        have htv := hstep.2.2.2.1
        rw [b.push_total_votes v vq.2 hvne] at htv
        omega
      · intro c hc
        have hcne : c ≠ v.headD 0 := fun hh => hfirstnotelim (hh ▸ hc)
        rw [hstep.2.2.2.2 c hc]
        exact b.push_getSlot_ne v vq.2 c hvne hcne

/-- Full characterisation of `runoff_or_promote` on a well-formed box, tying
the detach phase and the re-insertion phase together. -/
theorem BallotBox.rop_spec (b : BallotBox) (sel : List Nat) (rb : Bool) (b2 : BallotBox)
    (hinv : b.invB = true) (h : b.runoff_or_promote sel rb = some b2) :
    ∃ p pend, BallotBox.detachLoop rb sel b [] = some (p, pend) ∧
      b2.invB = true ∧
      b2.candidates = b.candidates ∧
      b2.eliminated = p.eliminated ∧
      b2.total_votes + exhaustedSum p.eliminatedList pend = p.total_votes + sumQ pend ∧
      p.total_votes + sumQ pend = b.total_votes ∧
      (∀ c ∈ p.eliminatedList, b2.nodes.getSlot c = p.nodes.getSlot c) := by
  rw [BallotBox.runoff_or_promote] at h
  cases hdl : BallotBox.detachLoop rb sel b [] with
  | none => rw [hdl] at h; cases h
  | some ppend =>
    obtain ⟨p, pend⟩ := ppend
    rw [hdl] at h
    injection h with h
    obtain ⟨g1, g2, g3, g4, g5, g6, g7⟩ :=
      BallotBox.detachLoop_spec rb sel b [] p pend hinv hdl
    have hbound : ∀ vq ∈ pend, ∀ c ∈ vq.1, c < p.candidates.length := by
      intro vq hvq
      rcases g5 vq hvq with hin | hb
      · simp at hin
      · rw [g2]; exact hb
    have hfold := BallotBox.pushFold_spec p.eliminatedList pend p g1
      (fun c => p.mem_eliminatedList c) hbound
    rw [h] at hfold
    refine ⟨p, pend, rfl, hfold.1, hfold.2.1.trans g2, hfold.2.2.1, ?_, ?_, hfold.2.2.2.2⟩
    · exact hfold.2.2.2.1
    · have hz : sumQ ([] : List (List Nat × Nat)) = 0 := rfl
      omega

/-- Every reachable box satisfies the box invariant. -/
theorem reach_invB {b : BallotBox} {s : Nat} (h : Reach b s) : b.invB = true := by
  induction h with
  | new cs => exact BallotBox.new_invB cs
  | push ballot q hr hne hb ih => exact BallotBox.push_invB _ ballot q hne hb ih
  | redistribute sel rb hr hrop ih =>
    obtain ⟨p, pend, _, hinv2, _⟩ := BallotBox.rop_spec _ sel rb _ ih hrop
    exact hinv2

/-- Live votes never exceed the total quantity ever pushed from outside. -/
theorem reach_total_le {b : BallotBox} {s : Nat} (h : Reach b s) : b.total_votes ≤ s := by
  induction h with
  | new cs => simp [BallotBox.new]
  | push ballot q hr hne hb ih =>
    rw [BallotBox.push_total_votes _ ballot q hne]
    omega
  | redistribute sel rb hr hrop ih =>
    obtain ⟨p, pend, hdl, _, _, _, htv1, htv2, _⟩ :=
      BallotBox.rop_spec _ sel rb _ (reach_invB hr) hrop
    omega

theorem exampleThree_promote_eq :
    exampleThreeBox.promote [0, 1] = some exampleThreeAfter := by
  with_unfolding_all decide

theorem exampleThree_status_first :
    exampleThreeBox.status (1/2) = some (.Promotion [0, 1]) := by
  with_unfolding_all decide

theorem exampleThreeAfter_status_none :
    exampleThreeAfter.status (1/2) = none := by
  with_unfolding_all decide

/-- Helper: `listMax` yields a value on any non-empty list (the Rust
`totals.iter().max().unwrap()` only panics on an empty totals vector). -/
theorem listMax_isSome (l : List Nat) (h : l ≠ []) : ∃ m, listMax l = some m := by
  cases l with
  | nil => exact absurd rfl h
  | cons x xs => exact ⟨_, rfl⟩

/-- Helper: on a box whose top-level totals are all zero (and non-empty),
`status` reaches the `min`-over-nonzero extraction with an empty iterator and
panics, modelled by `none`. -/
theorem status_of_allZero (b : BallotBox) (threshold : Rat)
    (hne : b.topTotals ≠ []) (hz : ∀ t ∈ b.topTotals, t = 0) :
    b.status threshold = none := by
  obtain ⟨m, hm⟩ := listMax_isSome _ hne
  have hf : b.topTotals.filter (fun x => x != 0) = [] := by
    rw [List.filter_eq_nil_iff]
    intro a ha
    simp [hz a ha]
  simp only [BallotBox.status, hm, hf, listMin]

theorem reach_exampleThreeBox : Reach exampleThreeBox 2 :=
  Reach.push [1] 1
    (Reach.push [0] 1 (Reach.new ["A", "B"]) (by decide) (by decide))
    (by decide) (by decide)

theorem reach_exampleThreeAfter : Reach exampleThreeAfter 2 :=
  Reach.redistribute [0, 1] false reach_exampleThreeBox exampleThree_promote_eq

theorem reach_exampleOneBox : Reach exampleOneBox 6 :=
  Reach.push [2, 0] 1
    (Reach.push [1, 2] 2
      (Reach.push [0, 1] 3 (Reach.new ["A", "B", "C"]) (by decide) (by decide))
      (by decide) (by decide))
    (by decide) (by decide)

theorem reach_runoffExampleBox : Reach runoffExampleBox 6 :=
  Reach.push [2] 1
    (Reach.push [1] 2
      (Reach.push [0] 3 (Reach.new ["A", "B", "C"]) (by decide) (by decide))
      (by decide) (by decide))
    (by decide) (by decide)

theorem runoffExample_runoff_eq :
    runoffExampleBox.runoff [2] = some runoffExampleAfter := by
  decide

theorem reach_runoffExampleAfter : Reach runoffExampleAfter 6 :=
  Reach.redistribute [2] true reach_runoffExampleBox runoffExample_runoff_eq

/-- C5: the trie invariant — `total_beneath = endings + Σ child.total_beneath`
at every present node, top-level or deeper — holds in every reachable ballot
box state: it is established by `BallotBox::new` (the empty trie) and
preserved by every `push` and every `runoff`/`promote` call, which are
exactly the transitions generating `Reach`. -/
theorem trie_invariant_reachable (b : BallotBox) (s : Nat) (h : Reach b s) :
    b.nodes.slotsInvB = true :=
  ((BallotBox.invB_iff b).mp (reach_invB h)).2.2.2.1

theorem trie_invariant_reachable_witness :
    runoffExampleAfter.nodes.slotsInvB = true :=
  trie_invariant_reachable runoffExampleAfter 6 reach_runoffExampleAfter

/-- C10: in every reachable ballot box state, a candidate whose `eliminated`
flag is set has an absent top-level slot, hence zero first-preference
votes. -/
theorem eliminated_has_no_top_node (b : BallotBox) (s : Nat) (h : Reach b s) (c : Nat)
    (helim : b.eliminated.getD c false = true) :
    b.nodes.getSlot c = none ∧ b.topTotals.getD c 0 = 0 := by
  obtain ⟨h1, h2, h3, h4, h5, h6⟩ := (BallotBox.invB_iff b).mp (reach_invB h)
  have hc : c < b.candidates.length := by
    by_contra hx
    rw [List.getD_eq_default _ _ (by omega)] at helim
    cases helim
  have hnone := h6 c hc helim
  refine ⟨hnone, ?_⟩
  rw [BallotBox.topTotals, b.nodes.totalsList_getD c, hnone, optTotal]

theorem eliminated_has_no_top_node_witness :
    runoffExampleAfter.eliminated.getD 2 false = true ∧
    (runoffExampleAfter.nodes.getSlot 2 = none ∧
      runoffExampleAfter.topTotals.getD 2 0 = 0) :=
  ⟨by decide,
    eliminated_has_no_top_node runoffExampleAfter 6 reach_runoffExampleAfter 2 (by decide)⟩

/-- C6: conservation — in every reachable state, `total_votes` never exceeds
the total quantity of all ballots ever pushed from outside, and every
`runoff`/`promote` call decreases `total_votes` by exactly the total quantity
of the pending votes that are exhausted in that call (stripping the
eliminated set leaves nothing), so no live votes are lost. -/
theorem conservation (b : BallotBox) (s : Nat) (h : Reach b s) :
    b.total_votes ≤ s ∧
    (∀ (sel : List Nat) (rb : Bool) (b2 p : BallotBox) (pend : List (List Nat × Nat)),
      b.runoff_or_promote sel rb = some b2 →
      BallotBox.detachLoop rb sel b [] = some (p, pend) →
      b.total_votes = b2.total_votes + exhaustedSum p.eliminatedList pend) := by
  refine ⟨reach_total_le h, ?_⟩
  intro sel rb b2 p pend hrop hdl
  obtain ⟨p2, pend2, hdl2, _, _, _, htv1, htv2, _⟩ :=
    BallotBox.rop_spec b sel rb b2 (reach_invB h) hrop
  rw [hdl] at hdl2
  injection hdl2 with hdl2
  injection hdl2 with hp hpend
  subst hp
  subst hpend
  omega

theorem conservation_witness :
    exampleThreeBox.runoff_or_promote [0, 1] false = some exampleThreeAfter ∧
    BallotBox.detachLoop false [0, 1] exampleThreeBox [] =
      some (exampleThreeAfter, [([], 1), ([], 1)]) ∧
    exampleThreeBox.total_votes ≤ 2 ∧
    exampleThreeBox.total_votes =
      exampleThreeAfter.total_votes +
        exhaustedSum exampleThreeAfter.eliminatedList [([], 1), ([], 1)] := by
  have hc := conservation exampleThreeBox 2 reach_exampleThreeBox
  refine ⟨by decide, by decide, hc.1, ?_⟩
  exact hc.2 [0, 1] false exampleThreeAfter exampleThreeAfter [([], 1), ([], 1)]
    (by decide) (by decide)

/-- During a promotion (`runoff = false`) the detach phase leaves the
eliminated flags untouched. -/
theorem BallotBox.detachLoop_eliminated_promote : ∀ (sel : List Nat) (b : BallotBox)
    (acc : List (List Nat × Nat)) (b2 : BallotBox) (pend : List (List Nat × Nat)),
    BallotBox.detachLoop false sel b acc = some (b2, pend) →
    b2.eliminated = b.eliminated := by
  intro sel
  induction sel with
  | nil =>
    intro b acc b2 pend h
    rw [BallotBox.detachLoop] at h
    injection h with h
    injection h with hb2 _
    rw [← hb2]
  | cons c1 rest ih =>
    intro b acc b2 pend h
    rw [BallotBox.detachLoop] at h
    cases hslot : b.nodes.getSlot c1 with
    | none => rw [hslot] at h; cases h
    | some nd =>
      rw [hslot] at h
      exact ih
        { b with
          nodes := b.nodes.setSlot c1 none
          total_votes := b.total_votes - nd.total_beneath
          eliminated := b.eliminated }
        (acc ++ nd.distribute []) b2 pend h

/-- Every selected candidate of a successful detach phase is a valid slot
index. -/
theorem BallotBox.detachLoop_sel_lt (rb : Bool) : ∀ (sel : List Nat) (b : BallotBox)
    (acc : List (List Nat × Nat)) (r : BallotBox × List (List Nat × Nat)),
    BallotBox.detachLoop rb sel b acc = some r →
    ∀ c ∈ sel, c < b.nodes.length := by
  intro sel
  induction sel with
  | nil => intro b acc r _ c hc; simp at hc
  | cons c1 rest ih =>
    intro b acc r h c hc
    rw [BallotBox.detachLoop] at h
    cases hslot : b.nodes.getSlot c1 with
    | none => rw [hslot] at h; cases h
    | some nd =>
      rw [hslot] at h
      rcases List.mem_cons.mp hc with rfl | hcr
      · exact b.nodes.lt_length_of_getSlot_some c (by rw [hslot]; exact Option.some_ne_none nd)
      · have := ih _ _ _ h c hcr
        rw [b.nodes.length_setSlot] at this
        exact this

/-- C7: full behaviour of `runoff_or_promote` on a selected candidate set in
a reachable state: (1) the detach phase empties every selected top-level
slot, (2) subtracting exactly the selected subtrees' `total_beneath` from
`total_votes`; (3)–(4) each pending fragment is stripped of the eliminated
candidates preserving relative order (an order-preserving filter) and is
re-inserted via `push` with its original quantity exactly when the stripped
fragment is non-empty; (5) after a promote the eliminated flags are exactly
unchanged, (6) after a runoff they are the old flags plus the selected
candidates, and (7) a runoff leaves every selected slot empty at the end. -/
theorem runoff_or_promote_spec (b : BallotBox) (s : Nat) (sel : List Nat) (rb : Bool)
    (b2 p : BallotBox) (pend : List (List Nat × Nat))
    (h : Reach b s) (hrop : b.runoff_or_promote sel rb = some b2)
    (hdl : BallotBox.detachLoop rb sel b [] = some (p, pend)) :
    (∀ c ∈ sel, p.nodes.getSlot c = none) ∧
    (p.total_votes + (sel.map (fun c => optTotal (b.nodes.getSlot c))).sum =
      b.total_votes) ∧
    (∀ v r v', Ballot.remove_candidates v r = some v' →
      v' = v.filter (fun c => !(r.contains c)) ∧ v' ≠ []) ∧
    (∀ v r, Ballot.remove_candidates v r = none ↔ ∀ c ∈ v, c ∈ r) ∧
    (rb = false → b2.eliminated = b.eliminated) ∧
    (rb = true → ∀ c, b2.eliminated.getD c false =
      (b.eliminated.getD c false || decide (c ∈ sel))) ∧
    (rb = true → ∀ c ∈ sel, b2.nodes.getSlot c = none) := by
  have hinv := reach_invB h
  obtain ⟨hn1, hn2, hn3, hn4, hn5, hn6⟩ := (BallotBox.invB_iff b).mp hinv
  obtain ⟨g1, g2, g3, g4, g5, g6, g7⟩ :=
    BallotBox.detachLoop_spec rb sel b [] p pend hinv hdl
  obtain ⟨p2, pend2, hdl2, r1, r2, r3, r4, r5, r6⟩ :=
    BallotBox.rop_spec b sel rb b2 hinv hrop
  rw [hdl] at hdl2
  injection hdl2 with hdl2
  injection hdl2 with hp hpend
  subst hp
  subst hpend
  have hsel_lt : ∀ c ∈ sel, c < b.candidates.length := by
    intro c hc
    have := BallotBox.detachLoop_sel_lt rb sel b [] (p, pend) hdl c hc
    omega
  refine ⟨?_, ?_, ?_, ?_, ?_, ?_, ?_⟩
  · intro c hc
    rw [g6 c, if_pos hc]
  · have hz : sumQ ([] : List (List Nat × Nat)) = 0 := rfl
    omega
  · exact fun v r v' hv => Ballot.remove_candidates_eq_some v r v' hv
  · exact fun v r => Ballot.remove_candidates_eq_none v r
  · intro hrb
    subst hrb
    rw [r3]
    exact BallotBox.detachLoop_eliminated_promote sel b [] p pend hdl
  · intro hrb c
    subst hrb
    rw [r3, g7 c]
    simp
  · intro hrb c hc
    subst hrb
    have hcelim : c ∈ p.eliminatedList := by
      rw [BallotBox.mem_eliminatedList, g2]
      refine ⟨hsel_lt c hc, ?_⟩
      rw [g7 c]
      simp [hc]
    rw [r6 c hcelim, g6 c, if_pos hc]

theorem runoff_or_promote_spec_witness :
    runoffExampleBox.runoff_or_promote [2] true = some runoffExampleAfter ∧
    (∀ c ∈ [2], runoffExampleAfter.nodes.getSlot c = none) := by
  have hs := runoff_or_promote_spec runoffExampleBox 6 [2] true runoffExampleAfter
    { runoffExampleAfter with eliminated := [false, false, true] }
    [([], 1)] reach_runoffExampleBox (by decide) (by decide)
  exact ⟨by decide, hs.2.2.2.2.2.2 rfl⟩

theorem listMax_eq_none (l : List Nat) : listMax l = none ↔ l = [] := by
  cases l <;> simp [listMax]

/-- Specification of `listMax` (the model of `Iterator::max`): the value is a
member of the list and an upper bound of it. -/
theorem listMax_spec (l : List Nat) : ∀ m, listMax l = some m → m ∈ l ∧ ∀ x ∈ l, x ≤ m := by
  induction l with
  | nil => intro m h; cases h
  | cons x xs ih =>
    intro m h
    rw [listMax] at h
    injection h with h
    cases hxs : listMax xs with
    | none =>
      rw [hxs] at h
      have h2 : x = m := h
      have hnil := (listMax_eq_none xs).mp hxs
      subst hnil
      subst h2
      exact ⟨by simp, by simp⟩
    | some m2 =>
      rw [hxs] at h
      have h2 : Nat.max x m2 = m := h
      obtain ⟨hm2, hle⟩ := ih m2 hxs
      subst h2
      constructor
      · rcases Nat.le_total x m2 with hx | hx
        · have hxx : Nat.max x m2 = m2 := Nat.max_eq_right hx
          rw [hxx]
          exact List.mem_cons_of_mem x hm2
        · have hxx : Nat.max x m2 = x := Nat.max_eq_left hx
          rw [hxx]
          exact List.mem_cons_self x xs
      · intro y hy
        rcases List.mem_cons.mp hy with rfl | hy
        · exact Nat.le_max_left _ _
        · exact Nat.le_trans (hle y hy) (Nat.le_max_right _ _)

theorem listMin_isSome (l : List Nat) (h : l ≠ []) : ∃ m, listMin l = some m := by
  cases l with
  | nil => exact absurd rfl h
  | cons x xs => exact ⟨_, rfl⟩

theorem filter_nonzero_ne_nil (l : List Nat) (mx : Nat) (hmx : mx ∈ l) (h0 : 0 < mx) :
    l.filter (fun x => x != 0) ≠ [] := by
  intro hf
  have := List.filter_eq_nil_iff.mp hf mx hmx
  simp at this
  omega

/-- Reduced form of `status` once both `unwrap`s succeed, phrased with
`maxHolders` (the `winners` / `losers` accumulators of the source). -/
theorem status_eq (b : BallotBox) (threshold : Rat) (mx mn : Nat)
    (hmx : listMax b.topTotals = some mx)
    (hmn : listMin (b.topTotals.filter (fun x => x != 0)) = some mn) :
    b.status threshold = some (
      if mx = 0 then CountStatus.Tie
      else if (maxHolders b.topTotals mx).length = 1 ∧
          threshold * (b.total_votes : Rat) ≤ (mx : Rat)
        then CountStatus.Winner ((maxHolders b.topTotals mx).headD 0)
      else if (maxHolders b.topTotals mx).length = b.remaining
        then CountStatus.Promotion (maxHolders b.topTotals mx)
      else CountStatus.Runoff (maxHolders b.topTotals mn)) := by
  rw [BallotBox.status]
  simp only [hmx, hmn, maxHolders]

/-- Membership in `maxHolders`: an index is collected exactly when it is in
range and its total equals the distinguished value. -/
theorem enumFrom_filter_map_mem (p : Nat → Bool) : ∀ (l : List Nat) (i c : Nat),
    (c ∈ ((List.enumFrom i l).filter (fun ct => p ct.2)).map Prod.fst) ↔
      ∃ j, j < l.length ∧ c = i + j ∧ p (l.getD j 0) = true := by
  intro l
  induction l with
  | nil => intro i c; simp
  | cons x xs ih =>
    intro i c
    rw [List.enumFrom_cons, List.filter_cons]
    by_cases hp : p x
    · rw [if_pos (by simpa using hp), List.map_cons, List.mem_cons, ih (i + 1)]
      constructor
      · rintro (rfl | ⟨j, hj, rfl, hpj⟩)
        · exact ⟨0, by simp, by omega, by simpa using hp⟩
        · exact ⟨j + 1, by simp; omega, by omega, hpj⟩
      · rintro ⟨j, hj, rfl, hpj⟩
        cases j with
        | zero => exact Or.inl (by omega)
        | succ k =>
          refine Or.inr ⟨k, ?_, by omega, hpj⟩
          simp at hj
          omega
    · rw [if_neg (by simpa using hp), ih (i + 1)]
      constructor
      · rintro ⟨j, hj, rfl, hpj⟩
        exact ⟨j + 1, by simp; omega, by omega, hpj⟩
      · rintro ⟨j, hj, rfl, hpj⟩
        cases j with
        | zero => exact absurd hpj hp
        | succ k =>
          refine ⟨k, ?_, by omega, hpj⟩
          simp at hj
          omega

theorem maxHolders_mem (totals : List Nat) (m c : Nat) :
    c ∈ maxHolders totals m ↔ (c < totals.length ∧ totals.getD c 0 = m) := by
  have h := enumFrom_filter_map_mem (fun t => t == m) totals 0 c
  constructor
  · intro hc
    obtain ⟨j, hj, rfl, hpj⟩ := h.mp hc
    exact ⟨by omega, by simpa using hpj⟩
  · intro hc
    exact h.mpr ⟨c, hc.1, by omega, by simpa using hc.2⟩

theorem enumFrom_filter_map_length (p : Nat → Bool) : ∀ (l : List Nat) (i : Nat),
    (((List.enumFrom i l).filter (fun ct => p ct.2)).map Prod.fst).length = l.countP p := by
  intro l
  induction l with
  | nil => intro i; simp
  | cons x xs ih =>
    intro i
    rw [List.enumFrom_cons, List.filter_cons, List.countP_cons]
    by_cases hp : p x
    · rw [if_pos (by simpa using hp)]
      simp [ih (i + 1), hp]
    · rw [if_neg (by simpa using hp)]
      simp [ih (i + 1), hp]

theorem maxHolders_length (totals : List Nat) (m : Nat) :
    (maxHolders totals m).length = totals.countP (fun t => t == m) :=
  enumFrom_filter_map_length (fun t => t == m) totals 0

theorem list_getD_mem {α : Type} (l : List α) (d : α) : ∀ j, j < l.length → l.getD j d ∈ l := by
  induction l with
  | nil => intro j h; simp at h
  | cons x xs ih =>
    intro j h
    cases j with
    | zero => simp
    | succ k =>
      refine List.mem_cons_of_mem x (ih k ?_)
      simp at h
      omega

theorem list_mem_getD {α : Type} (l : List α) (d : α) (a : α) :
    a ∈ l → ∃ k, k < l.length ∧ l.getD k d = a := by
  induction l with
  | nil => intro h; simp at h
  | cons x xs ih =>
    intro h
    rcases List.mem_cons.mp h with rfl | h
    · exact ⟨0, by simp, rfl⟩
    · obtain ⟨k, hk, hka⟩ := ih h
      exact ⟨k + 1, by simp; omega, hka⟩

theorem countP_mono_getD {α β : Type} (p : α → Bool) (q : β → Bool) (d1 : α) (d2 : β) :
    ∀ (l1 : List α) (l2 : List β), l1.length = l2.length →
    (∀ i, i < l1.length → p (l1.getD i d1) = true → q (l2.getD i d2) = true) →
    l1.countP p ≤ l2.countP q := by
  intro l1
  induction l1 with
  | nil => intro l2 _ _; simp
  | cons x xs ih =>
    intro l2 hlen hmono
    cases l2 with
    | nil => simp at hlen
    | cons y ys =>
      rw [List.countP_cons, List.countP_cons]
      have ht := ih ys (by simp at hlen; omega)
        (fun i hi hp => hmono (i + 1) (by simp; omega) hp)
      by_cases hp : p x
      · have hq : q y = true := hmono 0 (by simp) (by simpa using hp)
        rw [if_pos hp, if_pos hq]
        omega
      · by_cases hq : q y
        · rw [if_neg hp, if_pos hq]
          omega
        · rw [if_neg hp, if_neg hq]
          omega

theorem countP_eq_iff_getD {α β : Type} (p : α → Bool) (q : β → Bool) (d1 : α) (d2 : β) :
    ∀ (l1 : List α) (l2 : List β), l1.length = l2.length →
    (∀ i, i < l1.length → p (l1.getD i d1) = true → q (l2.getD i d2) = true) →
    (l1.countP p = l2.countP q ↔
      ∀ i, i < l1.length → (p (l1.getD i d1) = true ↔ q (l2.getD i d2) = true)) := by
  intro l1
  induction l1 with
  | nil =>
    intro l2 hlen _
    cases l2 with
    | nil => simp
    | cons y ys => simp at hlen
  | cons x xs ih =>
    intro l2 hlen hmono
    cases l2 with
    | nil => simp at hlen
    | cons y ys =>
      have hlen2 : xs.length = ys.length := by simp at hlen; omega
      have hmono2 : ∀ i, i < xs.length → p (xs.getD i d1) = true →
          q (ys.getD i d2) = true :=
        fun i hi hp => hmono (i + 1) (by simp; omega) hp
      have hih := ih ys hlen2 hmono2
      rw [List.countP_cons, List.countP_cons]
      by_cases hp : p x
      · have hq : q y = true := hmono 0 (by simp) (by simpa using hp)
        rw [if_pos hp, if_pos hq]
        constructor
        · intro hc i hi
          cases i with
          | zero => constructor <;> intro _ <;> assumption
          | succ k =>
            refine (hih.mp (by omega)) k ?_
            simp at hi
            omega
        · intro hpt
          have := hih.mpr (fun i hi => hpt (i + 1) (by simp; omega))
          omega
      · by_cases hq : q y
        · have hmle := countP_mono_getD p q d1 d2 xs ys hlen2 hmono2
          rw [if_neg hp, if_pos hq]
          constructor
          · intro hc
            omega
          · intro hpt
            exfalso
            have h0 := (hpt 0 (by simp)).mpr (by simpa using hq)
            exact hp (by simpa using h0)
        · rw [if_neg hp, if_neg hq]
          constructor
          · intro hc i hi
            cases i with
            | zero =>
              constructor <;> intro hh
              · exact absurd hh hp
              · exact absurd hh hq
            | succ k =>
              refine (hih.mp (by omega)) k ?_
              simp at hi
              omega
          · intro hpt
            have := hih.mpr (fun i hi => hpt (i + 1) (by simp; omega))
            omega

theorem countP_eq_one_iff (p : Nat → Bool) : ∀ (l : List Nat),
    l.countP p = 1 ↔
      ∃ i, i < l.length ∧ p (l.getD i 0) = true ∧
        ∀ j, j < l.length → p (l.getD j 0) = true → j = i := by
  intro l
  induction l with
  | nil => simp
  | cons x xs ih =>
    rw [List.countP_cons]
    by_cases hp : p x
    · rw [if_pos hp]
      constructor
      · intro h
        have hz : xs.countP p = 0 := by omega
        refine ⟨0, by simp, by simpa using hp, ?_⟩
        intro j hj hpj
        cases j with
        | zero => rfl
        | succ k =>
          exfalso
          have hmem : xs.getD k 0 ∈ xs := list_getD_mem xs 0 k (by simp at hj; omega)
          exact (List.countP_eq_zero.mp hz _ hmem) hpj
      · rintro ⟨i, hi, hpi, huniq⟩
        have hz : xs.countP p = 0 := by
          rw [List.countP_eq_zero]
          intro a ha
          intro hpa
          obtain ⟨k, hk, hka⟩ := list_mem_getD xs 0 a ha
          have h1 := huniq (k + 1) (by simp; omega) (by rw [List.getD_cons_succ, hka]; exact hpa)
          have h0 := huniq 0 (by simp) (by simpa using hp)
          omega
        omega
    · rw [if_neg hp]
      rw [Nat.add_zero, ih]
      constructor
      · rintro ⟨i, hi, hpi, huniq⟩
        refine ⟨i + 1, by simp; omega, by simpa using hpi, ?_⟩
        intro j hj hpj
        cases j with
        | zero => exact absurd (by simpa using hpj) hp
        | succ k =>
          have := huniq k (by simp at hj; omega) (by simpa using hpj)
          omega
      · rintro ⟨i, hi, hpi, huniq⟩
        cases i with
        | zero => exact absurd (by simpa using hpi) hp
        | succ k =>
          refine ⟨k, by simp at hi; omega, by simpa using hpi, ?_⟩
          intro j hj hpj
          have := huniq (j + 1) (by simp; omega) (by simpa using hpj)
          omega

theorem le_sum_of_mem_nat (l : List Nat) (x : Nat) : x ∈ l → x ≤ l.sum := by
  induction l with
  | nil => intro h; simp at h
  | cons y ys ih =>
    intro h
    rcases List.mem_cons.mp h with rfl | h
    · simp
    · have := ih h
      rw [List.sum_cons]
      omega

/-- Common facts about a reachable box whose maximum top total is positive:
vector lengths agree, `total_votes` is the sum of top totals, the nonzero
minimum exists (so `status` does not panic), and every maximum-holder is
still in the race. -/
theorem bool_not_true_iff (x : Bool) : ((!x) = true) ↔ x = false := by
  cases x <;> simp

theorem status_setup (b : BallotBox) (s : Nat) (mx : Nat) (h : Reach b s)
    (hmx : listMax b.topTotals = some mx) (h0 : 0 < mx) :
    b.topTotals.length = b.candidates.length ∧
    b.eliminated.length = b.candidates.length ∧
    b.total_votes = b.topTotals.sum ∧
    (∃ mn, listMin (b.topTotals.filter (fun x => x != 0)) = some mn) ∧
    (∀ i, i < b.topTotals.length → (b.topTotals.getD i 0 == mx) = true →
      ((!b.eliminated.getD i false) = true)) := by
  obtain ⟨h1, h2, h3, h4, h5, h6⟩ := (BallotBox.invB_iff b).mp (reach_invB h)
  have hlen : b.topTotals.length = b.candidates.length := by
    rw [BallotBox.topTotals, b.nodes.totalsList_length]
    exact h1
  have hsum : b.total_votes = b.topTotals.sum := by
    rw [BallotBox.topTotals, ← b.nodes.totalSum_eq_sum_totalsList]
    exact h5
  have hmem := (listMax_spec _ mx hmx).1
  refine ⟨hlen, h2, hsum, listMin_isSome _ (filter_nonzero_ne_nil _ mx hmem h0), ?_⟩
  intro i hi hpi
  have hcases : b.eliminated.getD i false ≠ true → (!b.eliminated.getD i false) = true := by
    cases b.eliminated.getD i false <;> simp
  apply hcases
  intro helim
  have hnone := h6 i (by omega) helim
  have hzero : b.topTotals.getD i 0 = 0 := by
    rw [BallotBox.topTotals, b.nodes.totalsList_getD, hnone, optTotal]
  rw [beq_iff_eq] at hpi
  omega

/-- Being the singleton `[c]` of the winners accumulator is the same as `c`
being the unique index attaining the distinguished total. -/
theorem maxHolders_singleton (totals : List Nat) (m c : Nat) :
    ((maxHolders totals m).length = 1 ∧ (maxHolders totals m).headD 0 = c) ↔
    (c < totals.length ∧ totals.getD c 0 = m ∧
      ∀ d, d < totals.length → totals.getD d 0 = m → d = c) := by
  constructor
  · rintro ⟨hlen, hhead⟩
    obtain ⟨w, hw⟩ := List.length_eq_one.mp hlen
    rw [hw] at hhead
    have hwc : w = c := by simpa using hhead
    rw [hwc] at hw
    have hcmem : c ∈ maxHolders totals m := by rw [hw]; simp
    obtain ⟨hclen, hceq⟩ := (maxHolders_mem totals m c).mp hcmem
    refine ⟨hclen, hceq, ?_⟩
    intro d hd hdeq
    have hmem2 : d ∈ maxHolders totals m := (maxHolders_mem totals m d).mpr ⟨hd, hdeq⟩
    rw [hw] at hmem2
    simpa using hmem2
  · rintro ⟨hclen, hceq, huniq⟩
    have hcnt : totals.countP (fun t => t == m) = 1 := by
      rw [countP_eq_one_iff]
      exact ⟨c, hclen, by simpa using hceq, fun j hj hpj => huniq j hj (by simpa using hpj)⟩
    have hlen1 : (maxHolders totals m).length = 1 := by
      rw [maxHolders_length]
      exact hcnt
    obtain ⟨w, hw⟩ := List.length_eq_one.mp hlen1
    have hwmem : w ∈ maxHolders totals m := by rw [hw]; simp
    obtain ⟨hwlen, hweq⟩ := (maxHolders_mem totals m w).mp hwmem
    have hwc : w = c := huniq w hwlen hweq
    subst hwc
    exact ⟨hlen1, by rw [hw]; simp⟩

/-- C3: in a reachable state with a positive maximum and no winner declared,
`status` returns `Promotion(winners)` precisely when the set of candidates
attaining the maximum top-level total equals the set of non-eliminated
candidates; the code's count comparison `winners.len() == remaining()`
implements this set equality because (by the reachable-state invariant)
every maximum-holder is non-eliminated. -/
theorem promotion_iff_top_tie (b : BallotBox) (s : Nat) (threshold : Rat) (mx : Nat)
    (h : Reach b s) (hmx : listMax b.topTotals = some mx) (h0 : 0 < mx)
    (hnw : ¬((maxHolders b.topTotals mx).length = 1 ∧
      threshold * (b.total_votes : Rat) ≤ (mx : Rat))) :
    (b.status threshold = some (.Promotion (maxHolders b.topTotals mx)) ↔
      ∀ c, c < b.candidates.length →
        (b.topTotals.getD c 0 = mx ↔ b.eliminated.getD c false = false)) := by
  obtain ⟨hlen, helen, hsum, ⟨mn, hmn⟩, hmono⟩ := status_setup b s mx h hmx h0
  rw [status_eq b threshold mx mn hmx hmn, if_neg (by omega), if_neg hnw]
  have hcnt := countP_eq_iff_getD (fun t => t == mx) (fun x => !x) 0 false
    b.topTotals b.eliminated (by omega) hmono
  have hrem : b.remaining = b.eliminated.countP (fun x => !x) := rfl
  constructor
  · intro hst
    by_cases hLR : (maxHolders b.topTotals mx).length = b.remaining
    · have hpt := hcnt.mp (by rw [← maxHolders_length, hLR, hrem])
      intro c hc
      have hi := hpt c (by omega)
      constructor
      · intro hceq
        exact (bool_not_true_iff _).mp (hi.mp (beq_iff_eq.mpr hceq))
      · intro hne
        exact beq_iff_eq.mp (hi.mpr ((bool_not_true_iff _).mpr hne))
    · rw [if_neg hLR] at hst
      injection hst with hst
      cases hst
  · intro hpt
    have hLR : (maxHolders b.topTotals mx).length = b.remaining := by
      rw [maxHolders_length, hrem]
      refine hcnt.mpr ?_
      intro i hi
      have hiff := hpt i (by omega)
      constructor
      · intro hh
        exact (bool_not_true_iff _).mpr (hiff.mp (beq_iff_eq.mp hh))
      · intro hh
        exact beq_iff_eq.mpr (hiff.mpr ((bool_not_true_iff _).mp hh))
    rw [if_pos hLR]

theorem promotion_iff_top_tie_witness :
    exampleThreeBox.status (1/2) =
      some (.Promotion (maxHolders exampleThreeBox.topTotals 1)) := by
  refine (promotion_iff_top_tie exampleThreeBox 2 (1/2) 1 reach_exampleThreeBox
    (by decide) (by decide) ?_).mpr (by decide)
  with_unfolding_all decide

/-- C4: on a reachable state with a positive maximum, `status` returns
`Winner(c)` precisely when `c` is the unique candidate attaining the maximum
top-level total and `max / total_votes >= threshold` holds, inclusively at
the boundary; in particular example 1 of the spec yields `Winner(A)` at
threshold `0.5` because `3/6 = 0.5 >= 0.5`. -/
theorem winner_iff_unique_max_threshold :
    (∀ (b : BallotBox) (s : Nat) (threshold : Rat) (mx c : Nat),
      Reach b s → listMax b.topTotals = some mx → 0 < mx →
      (b.status threshold = some (.Winner c) ↔
        (c < b.topTotals.length ∧ b.topTotals.getD c 0 = mx ∧
          (∀ d, d < b.topTotals.length → b.topTotals.getD d 0 = mx → d = c) ∧
          threshold ≤ (mx : Rat) / (b.total_votes : Rat)))) ∧
    exampleOneBox.status (1/2) = some (.Winner 0) := by
  constructor
  · intro b s threshold mx c h hmx h0
    obtain ⟨hlen, helen, hsum, ⟨mn, hmn⟩, hmono⟩ := status_setup b s mx h hmx h0
    have htvpos : 0 < b.total_votes := by
      have := le_sum_of_mem_nat _ mx (listMax_spec _ mx hmx).1
      omega
    have hdiv : (threshold ≤ (mx : Rat) / (b.total_votes : Rat)) ↔
        threshold * (b.total_votes : Rat) ≤ (mx : Rat) :=
      le_div_iff₀ (by exact_mod_cast htvpos)
    rw [status_eq b threshold mx mn hmx hmn, if_neg (by omega)]
    by_cases hcond : (maxHolders b.topTotals mx).length = 1 ∧
        threshold * (b.total_votes : Rat) ≤ (mx : Rat)
    · rw [if_pos hcond]
      constructor
      · intro hst
        injection hst with hst
        injection hst with hst
        obtain ⟨h1', h2', h3'⟩ := (maxHolders_singleton _ mx c).mp ⟨hcond.1, hst⟩
        exact ⟨h1', h2', h3', hdiv.mpr hcond.2⟩
      · rintro ⟨hc1, hc2, hc3, _⟩
        have hsing := (maxHolders_singleton _ mx c).mpr ⟨hc1, hc2, hc3⟩
        rw [hsing.2]
    · rw [if_neg hcond]
      constructor
      · intro hst
        by_cases hLR : (maxHolders b.topTotals mx).length = b.remaining
        · rw [if_pos hLR] at hst
          injection hst with hst
          cases hst
        · rw [if_neg hLR] at hst
          injection hst with hst
          cases hst
      · rintro ⟨hc1, hc2, hc3, hc4⟩
        exact absurd ⟨((maxHolders_singleton _ mx c).mpr ⟨hc1, hc2, hc3⟩).1,
          hdiv.mp hc4⟩ hcond
  · with_unfolding_all decide

theorem winner_iff_unique_max_threshold_witness :
    exampleOneBox.status (1/2) = some (CountStatus.Winner 0) :=
  (winner_iff_unique_max_threshold.1 exampleOneBox 6 (1/2) 3 0 reach_exampleOneBox
    (by decide) (by decide)).mpr
    ⟨by decide, by decide, by decide, by with_unfolding_all decide⟩

/-- C1: the spec asserts that on every reachable state whose top-level totals
are all zero, `status` returns `Tie` and never fails. On the code, the
minimum extraction `totals.iter().filter(|x| x != &&0).min().unwrap()` runs
before the `max == 0` tie branch and panics (modelled `none`) on exactly
those states, so `status` panics instead of returning `Tie`: the tie branch
is unreachable. -/
theorem status_allZero_panics (b : BallotBox) (s : Nat) (threshold : Rat)
    (h : Reach b s) (hne : b.topTotals ≠ []) (hz : ∀ t ∈ b.topTotals, t = 0) :
    b.status threshold = none :=
  status_of_allZero b threshold hne hz

theorem status_allZero_panics_witness :
    (exampleThreeAfter.topTotals ≠ [] ∧ ∀ t ∈ exampleThreeAfter.topTotals, t = 0) ∧
    exampleThreeAfter.status (1/2) = none :=
  ⟨⟨by decide, by decide⟩,
    status_allZero_panics exampleThreeAfter 2 (1/2) reach_exampleThreeAfter
      (by decide) (by decide)⟩

/-- C2: end-to-end example 3 — the first status call is `Promotion` of both
candidates, the promotion exhausts both length-1 ballots leaving both top
totals (and `total_votes`) zero, but the next status call panics in the code
(`none` here) on the minimum-over-nonzero `unwrap` instead of returning the
`Tie` the spec expects, so the counting loop never produces `Tie`. -/
theorem exampleThree_end_to_end :
    exampleThreeBox.status (1/2) = some (.Promotion [0, 1]) ∧
    exampleThreeBox.promote [0, 1] = some exampleThreeAfter ∧
    exampleThreeAfter.topTotals = [0, 0] ∧
    exampleThreeAfter.total_votes = 0 ∧
    exampleThreeAfter.status (1/2) = none := by
  refine ⟨?_, ?_, ?_, ?_, ?_⟩ <;> with_unfolding_all decide

/-- C9: the claim bounds the counting loop by `candidate_count + Σ ballot
lengths` rounds to a terminal `Winner`/`Tie`. For example 3 (two candidates,
two length-1 ballots, claimed bound 4) the loop instead panics at the second
round's status call: for every fuel of at least 2 the loop result is a
panic, never `Winner` or `Tie`, so no round bound makes it terminal. -/
theorem countLoop_exampleThree_panics (fuel : Nat) (h : 2 ≤ fuel) :
    countLoop fuel exampleThreeBox (1/2) = .panicked := by
  obtain ⟨k, rfl⟩ : ∃ k, fuel = k + 2 := ⟨fuel - 2, by omega⟩
  simp only [countLoop, exampleThree_status_first, exampleThree_promote_eq,
    exampleThreeAfter_status_none]

theorem countLoop_exampleThree_panics_witness :
    2 ≤ 4 ∧ countLoop 4 exampleThreeBox (1/2) = .panicked :=
  ⟨by decide, countLoop_exampleThree_panics 4 (by decide)⟩

theorem prefPairs_map_fst : ∀ (raw : List (Option Nat)) (idx : Nat),
    (prefPairs raw idx).map Prod.fst = raw.filterMap id := by
  intro raw
  induction raw with
  | nil => intro idx; rfl
  | cons o rest ih =>
    intro idx
    cases o with
    | none =>
      simp only [prefPairs, List.enumFrom_cons, List.filterMap_cons, Option.map_none',
        List.filterMap_cons_none, id]
      exact ih (idx + 1)
    | some p =>
      simp only [prefPairs, List.enumFrom_cons, List.filterMap_cons, Option.map_some', id]
      rw [List.map_cons]
      show p :: (prefPairs rest (idx + 1)).map Prod.fst = p :: rest.filterMap id
      rw [ih (idx + 1)]

theorem prefPairs_mem : ∀ (raw : List (Option Nat)) (idx p c : Nat),
    ((p, c) ∈ prefPairs raw idx) ↔
      ∃ j, j < raw.length ∧ c = idx + j ∧ raw.getD j none = some p := by
  intro raw
  induction raw with
  | nil => intro idx p c; simp [prefPairs]
  | cons o rest ih =>
    intro idx p c
    cases o with
    | none =>
      simp only [prefPairs, List.enumFrom_cons, List.filterMap_cons, Option.map_none']
      rw [show (List.enumFrom (idx + 1) rest).filterMap
          (fun io => io.2.map (fun q => (q, io.1))) = prefPairs rest (idx + 1) from rfl]
      rw [ih (idx + 1) p c]
      constructor
      · rintro ⟨j, hj, rfl, hg⟩
        exact ⟨j + 1, by simp; omega, by omega, hg⟩
      · rintro ⟨j, hj, rfl, hg⟩
        cases j with
        | zero => cases hg
        | succ k => exact ⟨k, by simp at hj; omega, by omega, hg⟩
    | some q =>
      simp only [prefPairs, List.enumFrom_cons, List.filterMap_cons, Option.map_some']
      rw [List.mem_cons]
      rw [show (List.enumFrom (idx + 1) rest).filterMap
          (fun io => io.2.map (fun r => (r, io.1))) = prefPairs rest (idx + 1) from rfl]
      rw [ih (idx + 1) p c]
      constructor
      · rintro (heq | ⟨j, hj, rfl, hg⟩)
        · injection heq with h1 h2
          exact ⟨0, by simp, by omega, by simp [h1]⟩
        · exact ⟨j + 1, by simp; omega, by omega, hg⟩
      · rintro ⟨j, hj, rfl, hg⟩
        cases j with
        | zero =>
          have hg2 : some q = some p := hg
          injection hg2 with hg2
          refine Or.inl ?_
          rw [Prod.mk.injEq]
          exact ⟨hg2.symm, by omega⟩
        | succ k => exact Or.inr ⟨k, by simp at hj; omega, by omega, hg⟩

/-- When no preference value repeats (and none clashes with the already-seen
set), the validation loop succeeds and returns exactly the expressed
`(preference, candidate)` pairs in candidate order. -/
theorem collectPrefPairs_some : ∀ (raw : List (Option Nat)) (idx : Nat) (seen : List Nat),
    (raw.filterMap id).Nodup → (∀ p ∈ raw.filterMap id, p ∉ seen) →
    collectPrefPairs raw idx seen = some (prefPairs raw idx) := by
  intro raw
  induction raw with
  | nil => intro idx seen _ _; rfl
  | cons o rest ih =>
    intro idx seen hnd hseen
    cases o with
    | none =>
      rw [collectPrefPairs]
      have h1 : (rest.filterMap id).Nodup := by simpa using hnd
      have h2 : ∀ p ∈ rest.filterMap id, p ∉ seen := by
        intro p hp
        exact hseen p (by simpa using hp)
      rw [ih (idx + 1) seen h1 h2]
      rfl
    | some p =>
      rw [collectPrefPairs]
      have hfm : (some p :: rest).filterMap id = p :: rest.filterMap id := by simp
      rw [hfm] at hnd hseen
      rw [List.nodup_cons] at hnd
      have hpseen : p ∉ seen := hseen p (by simp)
      rw [if_neg hpseen]
      have h2 : ∀ q ∈ rest.filterMap id, q ∉ p :: seen := by
        intro q hq
        rw [List.mem_cons]
        rintro (rfl | hqs)
        · exact hnd.1 hq
        · exact hseen q (by simp [hq]) hqs
      rw [ih (idx + 1) (p :: seen) hnd.2 h2]
      rfl

/-- The validation loop fails exactly when a preference value repeats or
clashes with the already-seen set. -/
theorem collectPrefPairs_none : ∀ (raw : List (Option Nat)) (idx : Nat) (seen : List Nat),
    collectPrefPairs raw idx seen = none ↔
      ¬((raw.filterMap id).Nodup ∧ ∀ p ∈ raw.filterMap id, p ∉ seen) := by
  intro raw
  induction raw with
  | nil =>
    intro idx seen
    constructor
    · intro h; cases h
    · intro h
      exact absurd ⟨by simp, by simp⟩ h
  | cons o rest ih =>
    intro idx seen
    cases o with
    | none =>
      rw [collectPrefPairs]
      rw [ih (idx + 1) seen]
      constructor
      · intro h hc
        refine h ⟨by simpa using hc.1, ?_⟩
        intro p hp
        exact hc.2 p (by simpa using hp)
      · intro h hc
        refine h ⟨by simpa using hc.1, ?_⟩
        intro p hp
        exact hc.2 p (by simpa using hp)
    | some p =>
      rw [collectPrefPairs]
      have hfm : (some p :: rest).filterMap id = p :: rest.filterMap id := by simp
      rw [hfm]
      by_cases hpseen : p ∈ seen
      · rw [if_pos hpseen]
        constructor
        · intro _ hc
          exact hc.2 p (by simp) hpseen
        · intro _; rfl
      · rw [if_neg hpseen]
        cases hcp : collectPrefPairs rest (idx + 1) (p :: seen) with
        | none =>
          have hih := (ih (idx + 1) (p :: seen)).mp hcp
          constructor
          · intro _ hc
            rw [List.nodup_cons] at hc
            refine hih ⟨hc.1.2, ?_⟩
            intro q hq
            rw [List.mem_cons]
            rintro (rfl | hqs)
            · exact hc.1.1 hq
            · exact hc.2 q (by simp [hq]) hqs
          · intro _; rfl
        | some pairs =>
          have hih : ((rest.filterMap id).Nodup ∧
              ∀ q ∈ rest.filterMap id, q ∉ p :: seen) := by
            by_contra hx
            rw [← ih (idx + 1) (p :: seen)] at hx
            rw [hcp] at hx
            cases hx
          constructor
          · intro h
            cases h
          · intro hc
            exfalso
            refine hc ⟨?_, ?_⟩
            · rw [List.nodup_cons]
              refine ⟨?_, hih.1⟩
              intro hpmem
              exact hih.2 p hpmem (by simp)
            · intro q hq
              rcases List.mem_cons.mp hq with rfl | hq2
              · exact hpseen
              · intro hqs
                exact hih.2 q hq2 (by simp [hqs])

theorem insertPairSorted_perm (p : Nat × Nat) (l : List (Nat × Nat)) :
    (insertPairSorted p l).Perm (p :: l) := by
  induction l with
  | nil => exact List.Perm.refl _
  | cons q rest ih =>
    rw [insertPairSorted]
    by_cases h : p.1 ≤ q.1
    · rw [if_pos h]
    · rw [if_neg h]
      exact (List.Perm.cons q ih).trans (List.Perm.swap p q rest)

theorem sortPairs_perm (l : List (Nat × Nat)) : (sortPairs l).Perm l := by
  induction l with
  | nil => exact List.Perm.refl _
  | cons p rest ih =>
    exact (insertPairSorted_perm p _).trans (List.Perm.cons p ih)

theorem insertPairSorted_sorted (p : Nat × Nat) (l : List (Nat × Nat))
    (h : l.Pairwise (fun a b => a.1 ≤ b.1)) :
    (insertPairSorted p l).Pairwise (fun a b => a.1 ≤ b.1) := by
  induction l with
  | nil => simp [insertPairSorted]
  | cons q rest ih =>
    rw [List.pairwise_cons] at h
    rw [insertPairSorted]
    by_cases hp : p.1 ≤ q.1
    · rw [if_pos hp, List.pairwise_cons]
      refine ⟨?_, List.pairwise_cons.mpr h⟩
      intro b hb
      rcases List.mem_cons.mp hb with rfl | hb
      · exact hp
      · exact Nat.le_trans hp (h.1 b hb)
    · rw [if_neg hp, List.pairwise_cons]
      refine ⟨?_, ih h.2⟩
      intro b hb
      have hmem := (insertPairSorted_perm p rest).mem_iff.mp hb
      rcases List.mem_cons.mp hmem with rfl | hb2
      · omega
      · exact h.1 b hb2

theorem sortPairs_sorted (l : List (Nat × Nat)) :
    (sortPairs l).Pairwise (fun a b => a.1 ≤ b.1) := by
  induction l with
  | nil => simp [sortPairs]
  | cons p rest ih => exact insertPairSorted_sorted p _ ih

theorem pairwise_lt_of_le_nodup : ∀ (l : List (Nat × Nat)),
    l.Pairwise (fun a b => a.1 ≤ b.1) → (l.map Prod.fst).Nodup →
    l.Pairwise (fun a b => a.1 < b.1) := by
  intro l
  induction l with
  | nil => intro _ _; exact List.Pairwise.nil
  | cons p rest ih =>
    intro hle hnd
    rw [List.pairwise_cons] at hle ⊢
    rw [List.map_cons, List.nodup_cons] at hnd
    refine ⟨?_, ih hle.2 hnd.2⟩
    intro b hb
    have h1 := hle.1 b hb
    have h2 : p.1 ≠ b.1 := fun heq => hnd.1 (heq ▸ List.mem_map_of_mem Prod.fst hb)
    omega

/-- C8: `from_raw_ballot` rejects a raw record exactly when some rank value
is expressed twice or no preference is expressed at all; on success the
ballot lists exactly the candidates that expressed a preference, ordered by
strictly ascending rank value (the rank values themselves are discarded). -/
theorem from_raw_ballot_spec (raw : List (Option Nat)) :
    (Ballot.from_raw_ballot raw = none ↔
      (¬(raw.filterMap id).Nodup ∨ raw.filterMap id = [])) ∧
    (∀ bl, Ballot.from_raw_ballot raw = some bl →
      (∀ c, c ∈ bl ↔ (c < raw.length ∧ raw.getD c none ≠ none)) ∧
      bl.Pairwise (fun c d =>
        (raw.getD c none).getD 0 < (raw.getD d none).getD 0)) := by
  constructor
  · rw [Ballot.from_raw_ballot]
    by_cases hnd : (raw.filterMap id).Nodup
    · rw [collectPrefPairs_some raw 0 [] hnd (by simp)]
      cases hpp : prefPairs raw 0 with
      | nil =>
        have hfm : raw.filterMap id = [] := by
          rw [← prefPairs_map_fst raw 0, hpp]
          rfl
        simp [hfm]
      | cons x xs =>
        have hfm : raw.filterMap id = (x :: xs).map Prod.fst := by
          rw [← prefPairs_map_fst raw 0, hpp]
        constructor
        · intro hh
          cases hh
        · rintro (hc | hc)
          · exact absurd hnd hc
          · rw [hfm] at hc
            cases hc
    · have hcn : collectPrefPairs raw 0 [] = none :=
        (collectPrefPairs_none raw 0 []).mpr (fun hh => hnd hh.1)
      rw [hcn]
      simp [hnd]
  · intro bl hbl
    rw [Ballot.from_raw_ballot] at hbl
    cases hc : collectPrefPairs raw 0 [] with
    | none => rw [hc] at hbl; cases hbl
    | some pairs =>
      rw [hc] at hbl
      cases pairs with
      | nil => cases hbl
      | cons x xs =>
        injection hbl with hbl
        have hcond : (raw.filterMap id).Nodup ∧
            ∀ p ∈ raw.filterMap id, p ∉ ([] : List Nat) := by
          by_contra hx
          rw [← collectPrefPairs_none raw 0 []] at hx
          rw [hc] at hx
          cases hx
        have hsome := collectPrefPairs_some raw 0 [] hcond.1 hcond.2
        rw [hc] at hsome
        injection hsome with hsome
        subst hbl
        have hrank : ∀ pr ∈ sortPairs (x :: xs), raw.getD pr.2 none = some pr.1 := by
          intro pr hpr
          have hmem : pr ∈ prefPairs raw 0 := by
            rw [← hsome]
            exact (sortPairs_perm (x :: xs)).mem_iff.mp hpr
          obtain ⟨j, hj, hc2, hg⟩ := (prefPairs_mem raw 0 pr.1 pr.2).mp
            (by rw [show (pr.1, pr.2) = pr from rfl]; exact hmem)
          rw [show pr.2 = j from by omega]
          exact hg
        constructor
        · intro c
          constructor
          · intro hcb
            obtain ⟨pr, hpr, hsnd⟩ := List.mem_map.mp hcb
            have hg := hrank pr hpr
            have hmem : pr ∈ prefPairs raw 0 := by
              rw [← hsome]
              exact (sortPairs_perm (x :: xs)).mem_iff.mp hpr
            obtain ⟨j, hj, hc2, hg2⟩ := (prefPairs_mem raw 0 pr.1 pr.2).mp
              (by rw [show (pr.1, pr.2) = pr from rfl]; exact hmem)
            rw [← hsnd]
            constructor
            · omega
            · rw [show pr.2 = j from by omega, hg2]
              exact Option.some_ne_none pr.1
          · rintro ⟨hcl, hcg⟩
            obtain ⟨p, hp⟩ := Option.ne_none_iff_exists'.mp hcg
            have hmem : (p, c) ∈ prefPairs raw 0 :=
              (prefPairs_mem raw 0 p c).mpr ⟨c, hcl, by omega, hp⟩
            rw [← hsome] at hmem
            have hmem2 : (p, c) ∈ sortPairs (x :: xs) :=
              (sortPairs_perm (x :: xs)).mem_iff.mpr hmem
            exact List.mem_map.mpr ⟨(p, c), hmem2, rfl⟩
        · have hnodupfst : ((sortPairs (x :: xs)).map Prod.fst).Nodup := by
            refine (List.Perm.nodup_iff ((sortPairs_perm (x :: xs)).map Prod.fst)).mpr ?_
            rw [hsome, prefPairs_map_fst]
            exact hcond.1
          have hstrict := pairwise_lt_of_le_nodup _ (sortPairs_sorted (x :: xs)) hnodupfst
          rw [List.pairwise_map]
          refine hstrict.imp_of_mem ?_
          intro a b ha hb hab
          rw [hrank a ha, hrank b hb]
          exact hab

theorem from_raw_ballot_spec_witness :
    Ballot.from_raw_ballot [some 2, none, some 1] = some [2, 0] ∧
    ([2, 0].Pairwise (fun c d =>
      (([some 2, none, some 1] : List (Option Nat)).getD c none).getD 0 <
        (([some 2, none, some 1] : List (Option Nat)).getD d none).getD 0)) :=
  ⟨by decide,
    ((from_raw_ballot_spec [some 2, none, some 1]).2 [2, 0] (by decide)).2⟩
